import Mathlib

/-!
Verification of the task-graph core and benchmark recipes of the `rsds`
use-case harness.  The benchmark recipes (`bench_merge`, `bench_tree`,
`do_something`, `merge`, `add`) are translated from
`src/scripts/usecases.py`.  The graph engine itself (deferred-call builder,
scheduler/executor, metrics) is not part of the repository sources; it is
modelled from the specification (GraphBuilder `defer`, Scheduler `run`,
GraphMetrics `vertexCount` / `edgeCount` / `criticalPathLength`).
-/

set_option maxHeartbeats 1000000

/-- Values flowing through the graph: Python integers. -/
abbrev Val := Int

/-- Modelled from the spec: an argument of a task node is either a literal
value or a handle (future reference) to another node's result. -/
inductive Arg where
  | lit : Val → Arg
  | handle : Nat → Arg
deriving DecidableEq, Repr

/-- The callables occurring in the benchmark recipes of `usecases.py`,
plus `failF`, modelling (from the spec's failure-propagation scenario) a
user-supplied callable that fails. -/
inductive Func where
  | doSomething
  | mergeF
  | addF
  | failF
deriving DecidableEq, Repr

/-- Modelled from the spec: a task node is a callable with an ordered list
of argument bindings. -/
structure TaskNode where
  func : Func
  args : List Arg
deriving DecidableEq, Repr

/-- Modelled from the spec: a task graph is the list of its nodes in
creation order; a node's identity is its index, and the no-forward-reference
invariant means every handle in a node's arguments is a smaller index. -/
abbrev Graph := List TaskNode

/-- Modelled from the spec: `defer(callable, *args)` appends a new task node
to the builder's graph and returns the handle to its future result. -/
def defer (f : Func) (args : List Arg) (g : Graph) : Graph × Arg :=
  (g ++ [⟨f, args⟩], Arg.handle g.length)

/-- Handle-valued dependencies of a node, in argument order. -/
def handleDeps (n : TaskNode) : List Nat :=
  n.args.filterMap fun a => match a with
    | .handle h => some h
    | .lit _ => none

/-- Test for handle-valued (deferred) arguments. -/
def isHandleArg : Arg → Bool
  | .handle _ => true
  | .lit _ => false

/-- Dependency edges (predecessor, successor) contributed by the nodes of a
graph, successors indexed from `i`. -/
def graphEdgesAux (i : Nat) : Graph → List (Nat × Nat)
  | [] => []
  | n :: rest => (handleDeps n).map (fun h => (h, i)) ++ graphEdgesAux (i + 1) rest

/-- Modelled from the spec: the edge list of a graph, derived from argument
references. -/
def graphEdges (g : Graph) : List (Nat × Nat) := graphEdgesAux 0 g

/-- Modelled from the spec: number of nodes. -/
def vertexCount (g : Graph) : Nat := g.length

/-- Modelled from the spec: total number of dependency edges. -/
def edgeCount (g : Graph) : Nat := (graphEdges g).length

/-- Longest-path value contributed by one argument: a literal is not a
predecessor; a handle contributes its node's longest-path value. -/
def argDepth (ds : List Nat) : Arg → Option Nat
  | .lit _ => none
  | .handle h => some (ds.getD h 0)

/-- Modelled from the spec: dynamic-programming step — a node with no
predecessors has longest-path value 0, otherwise 1 plus the maximum over
its predecessors. -/
def nodeDepth (ds : List Nat) (n : TaskNode) : Nat :=
  match n.args.filterMap (argDepth ds) with
  | [] => 0
  | d :: rest => rest.foldl max d + 1

/-- Longest-path values of the nodes of `g`, computed in topological
(creation) order given the values `ds` of the already-processed prefix. -/
def graphDepthsAux (ds : List Nat) : Graph → List Nat
  | [] => []
  | n :: rest =>
    let d := nodeDepth ds n
    d :: graphDepthsAux (ds ++ [d]) rest

/-- Longest-path-from-root value of every node of the graph. -/
def graphDepths (g : Graph) : List Nat := graphDepthsAux [] g

/-- Modelled from the spec: length in edges of the longest directed path
through the DAG. -/
def criticalPathLength (g : Graph) : Nat := (graphDepths g).foldl max 0

/-- Semantics of the benchmark callables: `do_something` returns `x * 10`,
`merge` returns `sum(args)`, `add` returns `x + y` (from
`src/scripts/usecases.py`); `failF` fails; arity mismatches fail. -/
def evalFunc : Func → List Val → Option Val
  | .doSomething, [x] => some (x * 10)
  | .addF, [x, y] => some (x + y)
  | .mergeF, args => some args.sum
  | .failF, _ => none
  | .doSomething, _ => none
  | .addF, _ => none

/-- Modelled from the spec: a per-node execution result — success value,
the node's own callable failed (`TaskExecutionError`), or a transitive
dependency failed (`DependencyFailedError`). -/
inductive ExecResult where
  | ok (v : Val)
  | taskFailed
  | depFailed
deriving DecidableEq, Repr

/-- Resolve one argument against the results computed so far; `none` when a
referenced dependency did not produce a value. -/
def evalArgE (res : List ExecResult) : Arg → Option Val
  | .lit v => some v
  | .handle h =>
    match res.getD h .taskFailed with
    | .ok v => some v
    | _ => none

/-- Resolve a whole argument list; `none` as soon as one argument fails to
resolve. -/
def evalArgs (res : List ExecResult) : List Arg → Option (List Val)
  | [] => some []
  | a :: rest =>
    match evalArgE res a, evalArgs res rest with
    | some v, some vs => some (v :: vs)
    | _, _ => none

/-- Modelled from the spec: executing one node — if any dependency failed
the node is marked `depFailed` instead of being executed; otherwise its
callable runs and either succeeds or is marked `taskFailed`. -/
def nodeExec (res : List ExecResult) (n : TaskNode) : ExecResult :=
  match evalArgs res n.args with
  | none => .depFailed
  | some vs =>
    match evalFunc n.func vs with
    | some v => .ok v
    | none => .taskFailed

/-- Execute the nodes of `g` in topological (creation) order, given the
results `res` of the already-executed prefix; returns the results of the
nodes of `g`. -/
def runAux (res : List ExecResult) : Graph → List ExecResult
  | [] => []
  | n :: rest =>
    let r := nodeExec res n
    r :: runAux (res ++ [r]) rest

/-- Modelled from the spec: the `run` entry point — executes every node
once in dependency order and returns the per-node result mapping; it is a
total function, a single node's failure never aborts the run. -/
def runGraphE (g : Graph) : List ExecResult := runAux [] g

/-- Recipe from `usecases.py`: `do_something(x) = x * 10`, deferred. -/
def do_something (x : Arg) (g : Graph) : Graph × Arg :=
  defer .doSomething [x] g

/-- Recipe from `usecases.py`: `merge(*args) = sum(args)`, deferred. -/
def merge (args : List Arg) (g : Graph) : Graph × Arg :=
  defer .mergeF args g

/-- Recipe from `usecases.py`: `add(x, y) = x + y`, deferred. -/
def add (x y : Arg) (g : Graph) : Graph × Arg :=
  defer .addF [x, y] g

/-- Translation of `bench_merge(count)`: `count` independent
`do_something` leaves over the literals `0, ..., count-1`, merged by one
N-ary `merge` node; returns the built graph and the terminal handle. -/
def bench_merge (count : Nat) : Graph × Arg :=
  let xs := (List.range count).foldl
    (fun (acc : Graph × List Arg) (x : Nat) =>
      let r := do_something (Arg.lit (x : Int)) acc.1
      (r.1, acc.2 ++ [r.2]))
    (([] : Graph), ([] : List Arg))
  merge xs.2 xs.1

/-- One pass of the inner `for i in range(0, len(L), 2)` loop of
`bench_tree`: pair up neighbours with `add`; `none` models the
`IndexError` on a trailing unpaired element. -/
def levelStep (g : Graph) : List Arg → Option (Graph × List Arg)
  | [] => some (g, [])
  | [_] => none
  | a :: b :: rest =>
    let r := add a b g
    match levelStep r.1 rest with
    | some (g2, hs) => some (g2, r.2 :: hs)
    | none => none

/-- The `while len(L) > 1` loop of `bench_tree`, with enough fuel; `none`
models a failing or non-terminating loop. -/
def treeLoopF (fuel : Nat) (g : Graph) (L : List Arg) : Option (Graph × List Arg) :=
  match fuel with
  | 0 => if L.length > 1 then none else some (g, L)
  | f + 1 =>
    if L.length > 1 then
      match levelStep g L with
      | some (g2, L2) => treeLoopF f g2 L2
      | none => none
    else some (g, L)

/-- Translation of `bench_tree(exp)`: pairwise tree reduction over the
literals `0, ..., 2^exp - 1`; returns the built graph and the final list
`L` (of length 1 on success). -/
def bench_tree (exp : Nat) : Option (Graph × List Arg) :=
  treeLoopF (2 ^ exp) [] ((List.range (2 ^ exp)).map fun n : Nat => Arg.lit (n : Int))

/-- Chain `A -> B -> C` from the spec's failure-propagation scenario:
`A = do_something(1)`, `B = failF(A)` (a callable that fails),
`C = do_something(B)`. -/
def chainA : Graph × Arg := do_something (Arg.lit 1) []

/-- Node B of the failure chain: a failing callable applied to A. -/
def chainB : Graph × Arg := defer .failF [chainA.2] chainA.1

/-- Node C of the failure chain: `do_something` applied to B. -/
def chainC : Graph × Arg := do_something chainB.2 chainB.1

/-! ### Basic structural lemmas -/

theorem length_runAux (res : List ExecResult) (g : Graph) :
    (runAux res g).length = g.length := by
  induction g generalizing res with
  | nil => rfl
  | cons n rest ih => simp [runAux, ih]

theorem length_runGraphE (g : Graph) : (runGraphE g).length = g.length :=
  length_runAux [] g

theorem runAux_append (res : List ExecResult) (g1 g2 : Graph) :
    runAux res (g1 ++ g2) = runAux res g1 ++ runAux (res ++ runAux res g1) g2 := by
  induction g1 generalizing res with
  | nil => simp [runAux]
  | cons n rest ih =>
    have h1 : runAux res ((n :: rest) ++ g2)
        = nodeExec res n :: runAux (res ++ [nodeExec res n]) (rest ++ g2) := rfl
    have h2 : runAux res (n :: rest)
        = nodeExec res n :: runAux (res ++ [nodeExec res n]) rest := rfl
    rw [h1, ih, h2, List.cons_append, List.append_assoc, List.singleton_append]

theorem length_graphDepthsAux (ds : List Nat) (g : Graph) :
    (graphDepthsAux ds g).length = g.length := by
  induction g generalizing ds with
  | nil => rfl
  | cons n rest ih => simp [graphDepthsAux, ih]

theorem length_graphDepths (g : Graph) : (graphDepths g).length = g.length :=
  length_graphDepthsAux [] g

theorem graphDepthsAux_append (ds : List Nat) (g1 g2 : Graph) :
    graphDepthsAux ds (g1 ++ g2) =
      graphDepthsAux ds g1 ++ graphDepthsAux (ds ++ graphDepthsAux ds g1) g2 := by
  induction g1 generalizing ds with
  | nil => simp [graphDepthsAux]
  | cons n rest ih =>
    have h1 : graphDepthsAux ds ((n :: rest) ++ g2)
        = nodeDepth ds n :: graphDepthsAux (ds ++ [nodeDepth ds n]) (rest ++ g2) := rfl
    have h2 : graphDepthsAux ds (n :: rest)
        = nodeDepth ds n :: graphDepthsAux (ds ++ [nodeDepth ds n]) rest := rfl
    rw [h1, ih, h2, List.cons_append, List.append_assoc, List.singleton_append]

theorem countP_congr_local {α : Type} (p q : α → Bool) (l : List α)
    (h : ∀ x ∈ l, p x = q x) : l.countP p = l.countP q := by
  induction l with
  | nil => rfl
  | cons a rest ih =>
    have ha := h a (by simp)
    have hr := ih fun x hx => h x (by simp [hx])
    by_cases hp : p a
    · rw [List.countP_cons_of_pos _ _ hp, List.countP_cons_of_pos _ _ (ha ▸ hp), hr]
    · rw [List.countP_cons_of_neg _ _ hp, List.countP_cons_of_neg _ _ (by rw [← ha]; exact hp), hr]

theorem length_filterMap_eq_countP {α β : Type} (f : α → Option β) (l : List α) :
    (l.filterMap f).length = l.countP fun a => (f a).isSome := by
  induction l with
  | nil => rfl
  | cons a rest ih =>
    cases hfa : f a with
    | none =>
      rw [List.filterMap_cons_none hfa, List.countP_cons_of_neg, ih]
      simp [hfa]
    | some b =>
      rw [List.filterMap_cons_some hfa, List.countP_cons_of_pos]
      · simp [ih]
      · simp [hfa]

theorem handleDeps_length_eq_countP (n : TaskNode) :
    (handleDeps n).length = n.args.countP isHandleArg := by
  rw [handleDeps, length_filterMap_eq_countP]
  apply countP_congr_local
  intro a _
  cases a <;> rfl

theorem graphEdgesAux_length (i : Nat) (g : Graph) :
    (graphEdgesAux i g).length = (g.map fun n => (handleDeps n).length).sum := by
  induction g generalizing i with
  | nil => rfl
  | cons n rest ih => simp [graphEdgesAux, ih]

theorem edgeCount_eq_sum (g : Graph) :
    edgeCount g = (g.map fun n => (handleDeps n).length).sum :=
  graphEdgesAux_length 0 g

/-! ### Lemmas about `foldl max` -/

theorem le_foldl_max_init (a : Nat) (l : List Nat) : a ≤ l.foldl max a := by
  induction l generalizing a with
  | nil => exact Nat.le_refl a
  | cons x rest ih =>
    calc a ≤ max a x := Nat.le_max_left a x
    _ ≤ rest.foldl max (max a x) := ih (max a x)

theorem le_foldl_max_mem (a x : Nat) (l : List Nat) (hx : x ∈ l) :
    x ≤ l.foldl max a := by
  induction l generalizing a with
  | nil => cases hx
  | cons y rest ih =>
    rcases List.mem_cons.mp hx with h | h
    · subst h
      calc x ≤ max a x := Nat.le_max_right a x
      _ ≤ rest.foldl max (max a x) := le_foldl_max_init _ rest
    · exact ih (max a y) h

theorem foldl_max_le (a m : Nat) (l : List Nat) (ha : a ≤ m)
    (h : ∀ x ∈ l, x ≤ m) : l.foldl max a ≤ m := by
  induction l generalizing a with
  | nil => exact ha
  | cons x rest ih =>
    apply ih (max a x)
    · exact Nat.max_le.mpr ⟨ha, h x (by simp)⟩
    · intro y hy
      exact h y (by simp [hy])

theorem foldl_max_eq_of_mem_of_le (a m : Nat) (l : List Nat) (ha : a ≤ m)
    (hmem : m ∈ l) (hle : ∀ x ∈ l, x ≤ m) : l.foldl max a = m :=
  Nat.le_antisymm (foldl_max_le a m l ha hle) (le_foldl_max_mem a m l hmem)

/-! ### Lemmas about node depth and handle-free nodes -/

theorem argDepth_isSome (ds : List Nat) (a : Arg) :
    (argDepth ds a).isSome = isHandleArg a := by
  cases a <;> rfl

theorem filterMap_argDepth_length (ds : List Nat) (n : TaskNode) :
    (n.args.filterMap (argDepth ds)).length = n.args.countP isHandleArg := by
  rw [length_filterMap_eq_countP]
  exact countP_congr_local _ _ _ fun a _ => argDepth_isSome ds a

theorem nodeDepth_eq_zero_iff (ds : List Nat) (n : TaskNode) :
    nodeDepth ds n = 0 ↔ n.args.countP isHandleArg = 0 := by
  rw [← filterMap_argDepth_length ds n]
  rw [nodeDepth]
  cases h : n.args.filterMap (argDepth ds) with
  | nil => simp
  | cons d rest => simp

theorem graphDepthsAux_all_zero (g : Graph) (ds : List Nat)
    (h : ∀ n ∈ g, n.args.countP isHandleArg = 0) :
    graphDepthsAux ds g = List.replicate g.length 0 := by
  induction g generalizing ds with
  | nil => rfl
  | cons n rest ih =>
    have hn : nodeDepth ds n = 0 :=
      (nodeDepth_eq_zero_iff ds n).mpr (h n (by simp))
    simp only [graphDepthsAux, hn, List.length_cons, List.replicate_succ]
    rw [ih (ds ++ [0]) fun m hm => h m (by simp [hm])]

theorem exists_pos_depth (g : Graph) (ds : List Nat)
    (h : ∃ n ∈ g, n.args.countP isHandleArg ≠ 0) :
    ∃ x ∈ graphDepthsAux ds g, 0 < x := by
  induction g generalizing ds with
  | nil => rcases h with ⟨n, hn, _⟩; cases hn
  | cons n rest ih =>
    rcases h with ⟨m, hm, hcount⟩
    rcases List.mem_cons.mp hm with rfl | hm2
    · refine ⟨nodeDepth ds m, by simp [graphDepthsAux], ?_⟩
      rcases Nat.eq_zero_or_pos (nodeDepth ds m) with h0 | hpos
      · exact absurd ((nodeDepth_eq_zero_iff ds m).mp h0) hcount
      · exact hpos
    · rcases ih (ds ++ [nodeDepth ds n]) ⟨m, hm2, hcount⟩ with ⟨x, hx, hxpos⟩
      exact ⟨x, by simp [graphDepthsAux, hx], hxpos⟩

/-- Claim C3: for every graph built via the builder's defer calls, the
total number of dependency edges equals the sum, over all nodes, of the
number of handle-valued (deferred) arguments that node was created with;
literal arguments contribute no edges. -/
theorem edges_eq_handle_arg_sum (g : Graph) :
    edgeCount g = (g.map fun n => n.args.countP isHandleArg).sum := by
  rw [edgeCount_eq_sum]
  congr 1
  exact List.map_congr_left fun n _ => handleDeps_length_eq_countP n

/-- Claim C7: for every graph, the critical-path length is nonnegative,
and it is zero exactly when the graph has no dependency edges. -/
theorem criticalPath_nonneg_and_zero_iff (g : Graph) :
    0 ≤ criticalPathLength g ∧ (criticalPathLength g = 0 ↔ edgeCount g = 0) := by
  refine ⟨Nat.zero_le _, ?_⟩
  rw [edgeCount_eq_sum, List.sum_eq_zero_iff]
  constructor
  · intro hcp
    intro x hx
    rcases List.mem_map.mp hx with ⟨n, hn, rfl⟩
    by_contra hne
    have hlen : (handleDeps n).length ≠ 0 := hne
    rw [handleDeps_length_eq_countP] at hlen
    rcases exists_pos_depth g [] ⟨n, hn, hlen⟩ with ⟨x, hx, hxpos⟩
    have : x ≤ criticalPathLength g := le_foldl_max_mem 0 x _ hx
    omega
  · intro hall
    have hz : ∀ n ∈ g, n.args.countP isHandleArg = 0 := by
      intro n hn
      have := hall ((handleDeps n).length) (List.mem_map.mpr ⟨n, hn, rfl⟩)
      rwa [handleDeps_length_eq_countP] at this
    rw [criticalPathLength, graphDepths, graphDepthsAux_all_zero g [] hz]
    apply Nat.le_antisymm _ (Nat.zero_le _)
    apply foldl_max_le 0 0 _ (Nat.le_refl 0)
    intro x hx
    rw [List.eq_of_mem_replicate hx]

/-! ### Small auxiliary list lemmas -/

theorem filterMap_some_comp {α β : Type} (f : α → β) (l : List α) :
    l.filterMap (fun x => some (f x)) = l.map f := by
  induction l with
  | nil => rfl
  | cons a r ih => simp [List.filterMap_cons, ih]

theorem getD_append_length {α : Type} (l : List α) (x : α) (t : List α) (d : α) :
    (l ++ x :: t).getD l.length d = x := by
  induction l with
  | nil => rfl
  | cons a r ih => exact ih

theorem getD_map_range {α : Type} (f : Nat → α) (n j : Nat) (d : α) (h : j < n) :
    ((List.range n).map f).getD j d = f j := by
  rw [List.getD_eq_getElem?_getD, List.getElem?_map, List.getElem?_range h]
  rfl

theorem getD_replicate_zero (n j : Nat) : (List.replicate n (0 : Nat)).getD j 0 = 0 := by
  rw [List.getD_eq_getElem?_getD, List.getElem?_replicate]
  split <;> rfl

theorem foldl_max_replicate_zero (k : Nat) : (List.replicate k 0).foldl max 0 = 0 :=
  Nat.le_antisymm
    (foldl_max_le 0 0 _ (Nat.le_refl 0)
      (fun x hx => by rw [List.eq_of_mem_replicate hx]))
    (Nat.zero_le _)

/-! ### Closed form of the `bench_merge` graph -/

/-- The leaf nodes of the `bench_merge` graph: one `do_something` node per
literal. -/
def mergeLeaves (count : Nat) : Graph :=
  (List.range count).map fun j : Nat => ⟨.doSomething, [.lit (j : Int)]⟩

theorem mergeLeaves_length (count : Nat) : (mergeLeaves count).length = count := by
  simp [mergeLeaves]

theorem bench_merge_foldl (count : Nat) :
    (List.range count).foldl
      (fun (acc : Graph × List Arg) (x : Nat) =>
        let r := do_something (Arg.lit (x : Int)) acc.1
        (r.1, acc.2 ++ [r.2]))
      (([] : Graph), ([] : List Arg))
    = (mergeLeaves count, (List.range count).map fun j => Arg.handle j) := by
  induction count with
  | zero => rfl
  | succ n ih =>
    rw [List.range_succ, List.foldl_append, ih]
    simp [mergeLeaves, do_something, defer, List.range_succ]

theorem bench_merge_eq (count : Nat) :
    bench_merge count =
      (mergeLeaves count ++ [⟨.mergeF, (List.range count).map fun j => Arg.handle j⟩],
       Arg.handle count) := by
  rw [bench_merge]
  rw [bench_merge_foldl]
  simp [merge, defer, mergeLeaves_length]

theorem mergeLeaves_handleDeps (count : Nat) :
    (mergeLeaves count).map (fun n => (handleDeps n).length) = List.replicate count 0 := by
  rw [mergeLeaves, List.map_map]
  have hc : ((fun n => (handleDeps n).length) ∘
      fun j : Nat => (⟨Func.doSomething, [Arg.lit (j : Int)]⟩ : TaskNode)) = fun _ => 0 := by
    funext j
    rfl
  rw [hc, List.map_const', List.length_range]

theorem handleDeps_merge_node (count : Nat) :
    handleDeps ⟨.mergeF, (List.range count).map fun j => Arg.handle j⟩ = List.range count := by
  rw [handleDeps, List.filterMap_map]
  have hc : ((fun a => match a with | .handle h => some h | .lit _ => none) ∘ Arg.handle)
      = fun h : Nat => some h := by
    funext h
    rfl
  rw [hc]
  exact List.filterMap_some _

theorem mergeLeaves_depths (count : Nat) (ds : List Nat) :
    graphDepthsAux ds (mergeLeaves count) = List.replicate count 0 := by
  rw [show List.replicate count 0 = List.replicate (mergeLeaves count).length 0 by
    rw [mergeLeaves_length]]
  apply graphDepthsAux_all_zero
  intro n hn
  rcases List.mem_map.mp hn with ⟨j, _, rfl⟩
  rfl

theorem merge_node_depth (count : Nat) (hc : 1 ≤ count) (ds : List Nat)
    (hds : ∀ j, ds.getD j 0 = 0) :
    nodeDepth ds ⟨.mergeF, (List.range count).map fun j => Arg.handle j⟩ = 1 := by
  rw [nodeDepth]
  have h1 : (((List.range count).map fun j => Arg.handle j).filterMap (argDepth ds))
      = List.replicate count 0 := by
    rw [List.filterMap_map]
    have hc2 : (argDepth ds ∘ Arg.handle) = fun h : Nat => some (ds.getD h 0) := by
      funext h
      rfl
    rw [hc2, filterMap_some_comp]
    have hc3 : ∀ j ∈ List.range count, ds.getD j 0 = (fun _ : Nat => 0) j := fun j _ => hds j
    rw [List.map_congr_left hc3, List.map_const', List.length_range]
  rw [h1]
  rcases Nat.exists_eq_add_of_le hc with ⟨k, rfl⟩
  rw [Nat.add_comm 1 k, List.replicate_succ]
  simp only []
  rw [foldl_max_replicate_zero]

/-- Claim C2: for every `count >= 1`, `bench_merge count` builds a graph
with `count + 1` vertices, `count` edges and critical-path length 1. -/
theorem bench_merge_metrics (count : Nat) (hc : 1 ≤ count) :
    vertexCount (bench_merge count).1 = count + 1 ∧
    edgeCount (bench_merge count).1 = count ∧
    criticalPathLength (bench_merge count).1 = 1 := by
  have hg : (bench_merge count).1
      = mergeLeaves count ++ [⟨.mergeF, (List.range count).map fun j => Arg.handle j⟩] := by
    rw [bench_merge_eq]
  refine ⟨?_, ?_, ?_⟩
  · rw [vertexCount, hg, List.length_append, mergeLeaves_length]
    rfl
  · rw [hg, edgeCount_eq_sum, List.map_append, List.sum_append, mergeLeaves_handleDeps]
    simp [handleDeps_merge_node]
  · rw [hg, criticalPathLength, graphDepths, graphDepthsAux_append, mergeLeaves_depths]
    rw [List.nil_append, graphDepthsAux]
    rw [merge_node_depth count hc _ (fun j => getD_replicate_zero count j)]
    rw [graphDepthsAux, List.foldl_append]
    rw [foldl_max_replicate_zero]
    rfl

/-- Witness for C2 at `count = 5`: 6 vertices, 5 edges, critical path 1. -/
theorem bench_merge_metrics_witness :
    1 ≤ 5 ∧
    (vertexCount (bench_merge 5).1 = 5 + 1 ∧
     edgeCount (bench_merge 5).1 = 5 ∧
     criticalPathLength (bench_merge 5).1 = 1) :=
  ⟨by decide, bench_merge_metrics 5 (by decide)⟩

/-! ### Execution of the `bench_merge` graph -/

theorem runAux_leaves (l : List Nat) (res : List ExecResult) :
    runAux res (l.map fun j : Nat => (⟨.doSomething, [.lit (j : Int)]⟩ : TaskNode))
      = l.map fun j : Nat => ExecResult.ok ((j : Int) * 10) := by
  induction l generalizing res with
  | nil => rfl
  | cons a rest ih =>
    simp only [List.map_cons, runAux]
    rw [show nodeExec res ⟨.doSomething, [.lit (a : Int)]⟩
        = ExecResult.ok ((a : Int) * 10) from rfl]
    rw [ih]

theorem evalArgs_handles (res : List ExecResult) (hs : List Nat) (f : Nat → Val)
    (h : ∀ x ∈ hs, res.getD x .taskFailed = .ok (f x)) :
    evalArgs res (hs.map fun j : Nat => Arg.handle j) = some (hs.map f) := by
  induction hs with
  | nil => rfl
  | cons a rest ih =>
    rw [List.map_cons, List.map_cons, evalArgs]
    have ha : evalArgE res (Arg.handle a) = some (f a) := by
      rw [evalArgE, h a (List.mem_cons_self a rest)]
    rw [ha, ih fun x hx => h x (List.mem_cons_of_mem a hx)]

theorem sum_range_cast_mul10 (n : Nat) :
    ((List.range n).map fun j : Nat => (j : Int) * 10).sum
      = 5 * (n : Int) * ((n : Int) - 1) := by
  induction n with
  | zero => simp
  | succ k ih =>
    rw [List.range_succ, List.map_append, List.sum_append, ih]
    simp only [List.map_cons, List.map_nil, List.sum_cons, List.sum_nil]
    push_cast
    ring

/-- Claim C8: executing the terminal node of `bench_merge count` yields
`sum (10 * x for x in range count) = 5 * count * (count - 1)`; for
`count = 0` the merge node receives zero handle arguments and the result
is 0 (the formula evaluates to 0 there). -/
theorem bench_merge_execution (count : Nat) :
    (bench_merge count).2 = Arg.handle count ∧
    ((bench_merge count).1.getD count ⟨.mergeF, []⟩).args.countP isHandleArg = count ∧
    (runGraphE (bench_merge count).1).getD count .taskFailed
      = .ok (5 * (count : Int) * ((count : Int) - 1)) := by
  have hg : (bench_merge count).1
      = mergeLeaves count ++ [⟨.mergeF, (List.range count).map fun j : Nat => Arg.handle j⟩] := by
    rw [bench_merge_eq]
  have ht : (bench_merge count).2 = Arg.handle count := by
    rw [bench_merge_eq]
  have hgetnode := getD_append_length (mergeLeaves count)
    (⟨.mergeF, (List.range count).map fun j : Nat => Arg.handle j⟩ : TaskNode) []
    (⟨.mergeF, []⟩ : TaskNode)
  rw [mergeLeaves_length] at hgetnode
  refine ⟨ht, ?_, ?_⟩
  · rw [hg, hgetnode]
    rw [List.countP_map]
    have hcomp : (isHandleArg ∘ fun j : Nat => Arg.handle j) = fun _ => true := by
      funext j
      rfl
    rw [hcomp, List.countP_true, List.length_range]
  · rw [hg, runGraphE, runAux_append]
    have hleafnodes : mergeLeaves count
        = (List.range count).map fun j : Nat => (⟨.doSomething, [.lit (j : Int)]⟩ : TaskNode) :=
      rfl
    rw [hleafnodes, runAux_leaves]
    have hexec : nodeExec
        ([] ++ (List.range count).map fun j : Nat => ExecResult.ok ((j : Int) * 10))
        ⟨.mergeF, (List.range count).map fun j : Nat => Arg.handle j⟩
        = .ok (5 * (count : Int) * ((count : Int) - 1)) := by
      have hargs : evalArgs
          ([] ++ (List.range count).map fun j : Nat => ExecResult.ok ((j : Int) * 10))
          ((List.range count).map fun j : Nat => Arg.handle j)
          = some ((List.range count).map fun j : Nat => (j : Int) * 10) := by
        apply evalArgs_handles
        intro x hx
        rw [List.nil_append]
        exact getD_map_range _ count x _ (List.mem_range.mp hx)
      rw [nodeExec, hargs]
      show ExecResult.ok ((List.range count).map fun j : Nat => (j : Int) * 10).sum = _
      rw [sum_range_cast_mul10]
    rw [show runAux ([] ++ (List.range count).map fun j : Nat => ExecResult.ok ((j : Int) * 10))
        [⟨.mergeF, (List.range count).map fun j : Nat => Arg.handle j⟩]
        = [nodeExec ([] ++ (List.range count).map fun j : Nat => ExecResult.ok ((j : Int) * 10))
            ⟨.mergeF, (List.range count).map fun j : Nat => Arg.handle j⟩] from rfl]
    rw [hexec]
    have hlen := getD_append_length
      ((List.range count).map fun j : Nat => ExecResult.ok ((j : Int) * 10))
      (ExecResult.ok (5 * (count : Int) * ((count : Int) - 1))) [] ExecResult.taskFailed
    rw [List.length_map, List.length_range] at hlen
    exact hlen

/-- Claim C5: in the chain `A -> B -> C` where B's callable fails, a single
run reports A as successful (`ok 10`), B as its own failure, and C as
`DependencyFailedError`; `run` is a total function returning one result per
node, so a single node's failure never aborts the run. -/
theorem chain_failure_propagation :
    runGraphE chainC.1 = [.ok 10, .taskFailed, .depFailed] ∧
    (∀ g : Graph, (runGraphE g).length = g.length) :=
  ⟨by decide, length_runGraphE⟩

/-! ### Structure of one tree-reduction level -/

/-- The `add` nodes created by one level of the tree reduction, pairing the
elements of `L` left to right. -/
def pairNodes : List Arg → Graph
  | [] => []
  | [_] => []
  | a :: b :: rest => ⟨.addF, [a, b]⟩ :: pairNodes rest

/-- The values of the nodes of one tree-reduction level. -/
def pairSums : List Val → List Val
  | [] => []
  | [_] => []
  | x :: y :: rest => (x + y) :: pairSums rest

/-- The handles returned by one tree-reduction level, starting at node id
`base`. -/
def newHandles (base : Nat) : List Arg → List Arg
  | [] => []
  | [_] => []
  | _ :: _ :: rest => Arg.handle base :: newHandles (base + 1) rest

/-- Handles `base, base + 1, ..., base + k - 1` as arguments. -/
def handlesFrom (base k : Nat) : List Arg :=
  (List.range k).map fun j : Nat => Arg.handle (base + j)

/-- Depth of the nodes of a level built from arguments of uniform depth
descriptor `d`: literals give root nodes (depth 0), handles of depth `m`
give depth `m + 1`. -/
def liftD : Option Nat → Nat
  | none => 0
  | some m => m + 1

/-- An argument `a` carrying value `v` at uniform level-depth `d` over the
graph `g`: it evaluates to `v` under the run of `g`, its depth descriptor
is `d`, and its handle (if any) is in range. -/
def GoodArg (g : Graph) (d : Option Nat) (a : Arg) (v : Val) : Prop :=
  evalArgE (runGraphE g) a = some v ∧
  argDepth (graphDepths g) a = d ∧
  (∀ h : Nat, a = Arg.handle h → h < g.length)

/-- A level: arguments and values in pointwise correspondence. -/
abbrev LGood (g : Graph) (d : Option Nat) (L : List Arg) (vs : List Val) : Prop :=
  List.Forall₂ (GoodArg g d) L vs

theorem twoStepInduction {α : Type} {P : List α → Prop} (h0 : P []) (h1 : ∀ a, P [a])
    (h2 : ∀ a b rest, P rest → P (a :: b :: rest)) : ∀ L, P L
  | [] => h0
  | [a] => h1 a
  | a :: b :: rest => h2 a b rest (twoStepInduction h0 h1 h2 rest)

theorem pairNodes_length : ∀ L : List Arg, (pairNodes L).length = L.length / 2 := by
  apply twoStepInduction
  · simp [pairNodes]
  · intro a
    simp [pairNodes]
  · intro a b rest ih
    simp only [pairNodes, List.length_cons, ih]
    omega

theorem pairSums_length : ∀ vs : List Val, (pairSums vs).length = vs.length / 2 := by
  apply twoStepInduction
  · simp [pairSums]
  · intro a
    simp [pairSums]
  · intro a b rest ih
    simp only [pairSums, List.length_cons, ih]
    omega

theorem newHandles_length : ∀ (L : List Arg) (base : Nat),
    (newHandles base L).length = (pairNodes L).length := by
  apply twoStepInduction (P := fun L => ∀ base : Nat,
    (newHandles base L).length = (pairNodes L).length)
  · intro base
    simp [newHandles, pairNodes]
  · intro a base
    simp [newHandles, pairNodes]
  · intro a b rest ih base
    simp only [newHandles, pairNodes, List.length_cons, ih]

theorem pairSums_sum : ∀ vs : List Val, vs.length % 2 = 0 →
    (pairSums vs).sum = vs.sum := by
  apply twoStepInduction
  · intro _
    simp [pairSums]
  · intro a h
    simp at h
  · intro a b rest ih h
    have hr : rest.length % 2 = 0 := by
      simp only [List.length_cons] at h
      omega
    simp only [pairSums, List.sum_cons, ih hr]
    ring

theorem evalArgE_append (res t : List ExecResult) (a : Arg) (v : Val)
    (hev : evalArgE res a = some v) (hb : ∀ h : Nat, a = Arg.handle h → h < res.length) :
    evalArgE (res ++ t) a = some v := by
  cases a with
  | lit w => exact hev
  | handle h =>
    show (match (res ++ t).getD h .taskFailed with | .ok v => some v | _ => none) = some v
    rw [List.getD_append res t _ h (hb h rfl)]
    exact hev

theorem argDepth_append (ds t : List Nat) (a : Arg)
    (hb : ∀ h : Nat, a = Arg.handle h → h < ds.length) :
    argDepth (ds ++ t) a = argDepth ds a := by
  cases a with
  | lit w => rfl
  | handle h =>
    show some ((ds ++ t).getD h 0) = some (ds.getD h 0)
    rw [List.getD_append ds t 0 h (hb h rfl)]

theorem forall₂_mem_left {α β : Type} {R : α → β → Prop} {l1 : List α} {l2 : List β}
    (hf : List.Forall₂ R l1 l2) : ∀ a ∈ l1, ∃ b ∈ l2, R a b := by
  induction hf with
  | nil =>
    intro a ha
    cases ha
  | cons hR htail ih =>
    intro x hx
    rcases List.mem_cons.mp hx with rfl | hx2
    · exact ⟨_, by simp, hR⟩
    · rcases ih x hx2 with ⟨b, hb, hRb⟩
      exact ⟨b, by simp [hb], hRb⟩

theorem levelStep_eq : ∀ L : List Arg, L.length % 2 = 0 → ∀ g : Graph,
    levelStep g L = some (g ++ pairNodes L, newHandles g.length L) := by
  apply twoStepInduction
    (P := fun L => L.length % 2 = 0 → ∀ g : Graph,
      levelStep g L = some (g ++ pairNodes L, newHandles g.length L))
  · intro _ g
    simp [levelStep, pairNodes, newHandles]
  · intro a h
    simp at h
  · intro a b rest ih h g
    have hr : rest.length % 2 = 0 := by
      simp only [List.length_cons] at h
      omega
    simp only [levelStep, add, defer]
    rw [ih hr]
    simp [pairNodes, newHandles, List.append_assoc]

theorem runAux_pairNodes : ∀ L : List Arg, ∀ (vs : List Val) (res : List ExecResult),
    List.Forall₂ (fun a v => evalArgE res a = some v ∧
      ∀ h : Nat, a = Arg.handle h → h < res.length) L vs →
    runAux res (pairNodes L) = (pairSums vs).map ExecResult.ok := by
  apply twoStepInduction
    (P := fun L => ∀ (vs : List Val) (res : List ExecResult),
      List.Forall₂ (fun a v => evalArgE res a = some v ∧
        ∀ h : Nat, a = Arg.handle h → h < res.length) L vs →
      runAux res (pairNodes L) = (pairSums vs).map ExecResult.ok)
  · intro vs res hf
    cases hf
    simp [pairNodes, pairSums, runAux]
  · intro a vs res hf
    cases hf with
    | cons hav htail =>
      cases htail
      simp [pairNodes, pairSums, runAux]
  · intro a b rest ih vs res hf
    cases hf with
    | @cons _ v1 _ vs1 ha h2 =>
      cases h2 with
      | @cons _ v2 _ vrest hb htail =>
        have hargs : evalArgs res [a, b] = some [v1, v2] := by
          simp [evalArgs, ha.1, hb.1]
        have hex : nodeExec res ⟨.addF, [a, b]⟩ = .ok (v1 + v2) := by
          rw [nodeExec, hargs]
          rfl
        simp only [pairNodes, pairSums, runAux, List.map_cons, hex]
        congr 1
        apply ih
        refine List.Forall₂.imp ?_ htail
        intro x y hxy
        refine ⟨evalArgE_append _ _ _ _ hxy.1 hxy.2, ?_⟩
        intro h hh
        calc h < res.length := hxy.2 h hh
        _ ≤ (res ++ [ExecResult.ok (v1 + v2)]).length := by simp

theorem depthsAux_pairNodes : ∀ L : List Arg, ∀ (ds : List Nat) (d : Option Nat),
    (∀ a ∈ L, argDepth ds a = d ∧ ∀ h : Nat, a = Arg.handle h → h < ds.length) →
    graphDepthsAux ds (pairNodes L) = List.replicate (pairNodes L).length (liftD d) := by
  apply twoStepInduction
    (P := fun L => ∀ (ds : List Nat) (d : Option Nat),
      (∀ a ∈ L, argDepth ds a = d ∧ ∀ h : Nat, a = Arg.handle h → h < ds.length) →
      graphDepthsAux ds (pairNodes L) = List.replicate (pairNodes L).length (liftD d))
  · intro ds d _
    simp [pairNodes, graphDepthsAux]
  · intro a ds d _
    simp [pairNodes, graphDepthsAux]
  · intro a b rest ih ds d hall
    have hda := (hall a (by simp)).1
    have hdb := (hall b (by simp)).1
    have hnode : nodeDepth ds ⟨.addF, [a, b]⟩ = liftD d := by
      rw [nodeDepth]
      cases d with
      | none =>
        have hfm : [a, b].filterMap (argDepth ds) = [] := by
          simp [List.filterMap_cons, hda, hdb]
        rw [hfm]
        rfl
      | some m =>
        have hfm : [a, b].filterMap (argDepth ds) = [m, m] := by
          simp [List.filterMap_cons, hda, hdb]
        rw [hfm]
        show [m].foldl max m + 1 = m + 1
        simp
    simp only [pairNodes, graphDepthsAux, hnode, List.length_cons, List.replicate_succ]
    congr 1
    apply ih
    intro x hx
    obtain ⟨h1, h2⟩ := hall x (by simp [hx])
    refine ⟨?_, ?_⟩
    · rw [argDepth_append ds [liftD d] x h2]
      exact h1
    · intro h hh
      calc h < ds.length := h2 h hh
      _ ≤ (ds ++ [liftD d]).length := by simp

theorem handlesFrom_succ (base k : Nat) :
    handlesFrom base (k + 1) = Arg.handle base :: handlesFrom (base + 1) k := by
  rw [handlesFrom, List.range_succ_eq_map, List.map_cons, List.map_map]
  rw [Nat.add_zero, handlesFrom]
  congr 1
  apply List.map_congr_left
  intro j _
  show Arg.handle (base + (j + 1)) = Arg.handle (base + 1 + j)
  congr 1
  omega

theorem newHandles_eq : ∀ L : List Arg, ∀ base : Nat,
    newHandles base L = handlesFrom base (pairNodes L).length := by
  apply twoStepInduction
    (P := fun L => ∀ base : Nat, newHandles base L = handlesFrom base (pairNodes L).length)
  · intro base
    simp [newHandles, pairNodes, handlesFrom]
  · intro a base
    simp [newHandles, pairNodes, handlesFrom]
  · intro a b rest ih base
    simp only [newHandles, pairNodes, List.length_cons]
    rw [handlesFrom_succ, ih]

theorem handlesFrom_good : ∀ (ws : List Val) (res0 : List ExecResult) (ds0 : List Nat)
    (g1 : Graph) (m : Nat),
    runGraphE g1 = res0 ++ ws.map ExecResult.ok →
    graphDepths g1 = ds0 ++ List.replicate ws.length m →
    ds0.length = res0.length →
    g1.length = res0.length + ws.length →
    List.Forall₂ (GoodArg g1 (some m)) (handlesFrom res0.length ws.length) ws := by
  intro ws
  induction ws with
  | nil =>
    intro res0 ds0 g1 m _ _ _ _
    show List.Forall₂ _ (handlesFrom res0.length 0) []
    rw [handlesFrom]
    exact List.Forall₂.nil
  | cons w ws ih =>
    intro res0 ds0 g1 m hrun hdep hlen hglen
    rw [show (w :: ws).length = ws.length + 1 from rfl, handlesFrom_succ]
    refine List.Forall₂.cons ⟨?_, ?_, ?_⟩ ?_
    · show (match (runGraphE g1).getD res0.length .taskFailed with
        | .ok v => some v | _ => none) = some w
      rw [hrun, List.map_cons, getD_append_length]
    · show some ((graphDepths g1).getD res0.length 0) = some m
      rw [hdep, show List.replicate (w :: ws).length m = m :: List.replicate ws.length m
        from rfl, ← hlen, getD_append_length]
    · intro h hh
      cases hh
      rw [hglen, show (w :: ws).length = ws.length + 1 from rfl]
      omega
    · have hres : ((res0 ++ [ExecResult.ok w]) : List ExecResult).length = res0.length + 1 := by
        simp
      have htail := ih (res0 ++ [ExecResult.ok w]) (ds0 ++ [m]) g1 m ?_ ?_ ?_ ?_
      · rw [hres] at htail
        exact htail
      · rw [hrun, List.map_cons]
        simp [List.append_assoc]
      · rw [hdep, show List.replicate (w :: ws).length m = m :: List.replicate ws.length m
          from rfl]
        simp [List.append_assoc]
      · simp [hlen]
      · rw [hglen, hres, show (w :: ws).length = ws.length + 1 from rfl]
        omega

theorem goodArg_shape_none {g : Graph} {a : Arg} {v : Val}
    (h : GoodArg g none a v) : ∃ w, a = Arg.lit w := by
  cases a with
  | lit w => exact ⟨w, rfl⟩
  | handle h2 =>
    have hd := h.2.1
    simp [argDepth] at hd

theorem goodArg_shape_some {g : Graph} {m : Nat} {a : Arg} {v : Val}
    (h : GoodArg g (some m) a v) : ∃ hh : Nat, a = Arg.handle hh := by
  cases a with
  | lit w =>
    have hd := h.2.1
    simp [argDepth] at hd
  | handle h2 => exact ⟨h2, rfl⟩

theorem pairNodes_mem : ∀ L : List Arg, ∀ n ∈ pairNodes L,
    ∃ a b, n = (⟨Func.addF, [a, b]⟩ : TaskNode) ∧ a ∈ L ∧ b ∈ L := by
  apply twoStepInduction
    (P := fun L => ∀ n ∈ pairNodes L,
      ∃ a b, n = (⟨Func.addF, [a, b]⟩ : TaskNode) ∧ a ∈ L ∧ b ∈ L)
  · intro n hn
    simp [pairNodes] at hn
  · intro a n hn
    simp [pairNodes] at hn
  · intro a b rest ih n hn
    rw [pairNodes] at hn
    rcases List.mem_cons.mp hn with rfl | hn2
    · exact ⟨a, b, rfl, by simp, by simp⟩
    · rcases ih n hn2 with ⟨x, y, rfl, hx, hy⟩
      exact ⟨x, y, rfl, by simp [hx], by simp [hy]⟩

theorem levelStep_good (L : List Arg) (vs : List Val) (g : Graph) (d : Option Nat)
    (heven : L.length % 2 = 0) (hgood : LGood g d L vs) :
    levelStep g L = some (g ++ pairNodes L, newHandles g.length L) ∧
    runGraphE (g ++ pairNodes L) = runGraphE g ++ (pairSums vs).map ExecResult.ok ∧
    graphDepths (g ++ pairNodes L)
      = graphDepths g ++ List.replicate (pairNodes L).length (liftD d) ∧
    LGood (g ++ pairNodes L) (some (liftD d)) (newHandles g.length L) (pairSums vs) ∧
    (∀ n ∈ pairNodes L, n.func = .addF ∧
      (handleDeps n).length = (if d.isSome then 2 else 0)) := by
  have hlen12 : (runGraphE g).length = g.length := length_runGraphE g
  have hds : (graphDepths g).length = g.length := length_graphDepths g
  have hLvs : L.length = vs.length := List.Forall₂.length_eq hgood
  have hrun2 : runGraphE (g ++ pairNodes L)
      = runGraphE g ++ (pairSums vs).map ExecResult.ok := by
    rw [runGraphE, runAux_append, List.nil_append]
    congr 1
    apply runAux_pairNodes
    refine List.Forall₂.imp ?_ hgood
    intro a v hav
    refine ⟨hav.1, ?_⟩
    intro h hh
    rw [length_runAux]
    exact hav.2.2 h hh
  have hdep2 : graphDepths (g ++ pairNodes L)
      = graphDepths g ++ List.replicate (pairNodes L).length (liftD d) := by
    rw [graphDepths, graphDepthsAux_append, List.nil_append]
    congr 1
    apply depthsAux_pairNodes
    intro a ha
    rcases forall₂_mem_left hgood a ha with ⟨v, _, hav⟩
    refine ⟨hav.2.1, ?_⟩
    intro h hh
    rw [length_graphDepthsAux]
    exact hav.2.2 h hh
  have hwl : (pairSums vs).length = (pairNodes L).length := by
    rw [pairSums_length, pairNodes_length, hLvs]
  refine ⟨levelStep_eq L heven g, hrun2, hdep2, ?_, ?_⟩
  · rw [newHandles_eq, LGood]
    rw [show (pairNodes L).length = (pairSums vs).length from hwl.symm]
    rw [show g.length = (runGraphE g).length from hlen12.symm]
    apply handlesFrom_good (pairSums vs) (runGraphE g) (graphDepths g) _ (liftD d)
    · exact hrun2
    · rw [hdep2, hwl]
    · rw [hds, hlen12]
    · rw [List.length_append, ← hlen12, ← hwl]
  · intro n hn
    rcases pairNodes_mem L n hn with ⟨a, b, rfl, haL, hbL⟩
    rcases forall₂_mem_left hgood a haL with ⟨va, _, hava⟩
    rcases forall₂_mem_left hgood b hbL with ⟨vb, _, havb⟩
    refine ⟨rfl, ?_⟩
    cases d with
    | none =>
      rcases goodArg_shape_none hava with ⟨wa, rfl⟩
      rcases goodArg_shape_none havb with ⟨wb, rfl⟩
      rfl
    | some m =>
      rcases goodArg_shape_some hava with ⟨ha2, rfl⟩
      rcases goodArg_shape_some havb with ⟨hb2, rfl⟩
      rfl

theorem treeLoopF_short (fuel : Nat) (g : Graph) (L : List Arg) (h : ¬ L.length > 1) :
    treeLoopF fuel g L = some (g, L) := by
  cases fuel <;> simp [treeLoopF, h]

theorem treeLoop_good : ∀ (k fuel : Nat) (g : Graph) (d : Option Nat)
    (L : List Arg) (vs : List Val),
    k ≤ fuel → L.length = 2 ^ k → LGood g d L vs →
    ∃ (t : Graph) (a : Arg),
      treeLoopF fuel g L = some (g ++ t, [a]) ∧
      t.length = 2 ^ k - 1 ∧
      GoodArg (g ++ t) (if k = 0 then d else some (liftD d + (k - 1))) a vs.sum ∧
      (∀ n ∈ t, n.func = .addF ∧
        ((handleDeps n).length = 0 ∨ (handleDeps n).length = 2)) ∧
      (t.map fun n => (handleDeps n).length).sum
        = (if k = 0 then 0 else if d.isSome then 2 ^ (k + 1) - 2 else 2 ^ k - 2) ∧
      (t.countP fun n => (handleDeps n).length == 0)
        = (if k = 0 then 0 else if d.isSome then 0 else 2 ^ (k - 1)) ∧
      (∀ x ∈ graphDepthsAux (graphDepths g) t, x ≤ liftD d + (k - 1)) ∧
      (k ≠ 0 → (liftD d + (k - 1)) ∈ graphDepthsAux (graphDepths g) t) := by
  intro k
  induction k with
  | zero =>
    intro fuel g d L vs _ hlen hgood
    rcases List.length_eq_one.mp (by rw [hlen]; rfl) with ⟨a, rfl⟩
    cases hgood with
    | cons hav htail =>
      cases htail
      refine ⟨[], a, ?_, ?_, ?_, ?_, ?_, ?_, ?_, ?_⟩
      · rw [treeLoopF_short _ _ _ (by simp), List.append_nil]
      · simp
      · simpa using hav
      · intro n hn
        cases hn
      · simp
      · simp
      · intro x hx
        simp [graphDepthsAux] at hx
      · intro h0
        exact absurd rfl h0
  | succ k ih =>
    intro fuel g d L vs hfuel hlen hgood
    rcases fuel with _ | f
    · omega
    have hfk : k ≤ f := Nat.succ_le_succ_iff.mp hfuel
    have hp : 0 < 2 ^ k := Nat.pos_pow_of_pos k (by norm_num)
    have hpow1 : 2 ^ (k + 1) = 2 * 2 ^ k := by
      rw [Nat.pow_succ]
      ring
    have hpow2 : 2 ^ (k + 1 + 1) = 4 * 2 ^ k := by
      rw [Nat.pow_succ, Nat.pow_succ]
      ring
    have heven : L.length % 2 = 0 := by
      rw [hlen, hpow1]
      omega
    obtain ⟨hstep, hrun2, hdep2, hgood2, hpairs⟩ := levelStep_good L vs g d heven hgood
    have hPN : (pairNodes L).length = 2 ^ k := by
      rw [pairNodes_length, hlen, hpow1]
      omega
    have hNH : (newHandles g.length L).length = 2 ^ k := by
      rw [newHandles_length, hPN]
    obtain ⟨t2, a, hloop2, hlen2, hgooda, hshape2, hsum2, hcount2, hbound2, hmem2⟩ :=
      ih f (g ++ pairNodes L) (some (liftD d)) (newHandles g.length L) (pairSums vs)
        hfk hNH hgood2
    have hL1 : L.length > 1 := by
      rw [hlen, hpow1]
      omega
    have htree : treeLoopF (f + 1) g L
        = treeLoopF f (g ++ pairNodes L) (newHandles g.length L) := by
      simp only [treeLoopF, if_pos hL1, hstep]
    have hvseven : vs.length % 2 = 0 := by
      rw [← List.Forall₂.length_eq hgood]
      exact heven
    have hvsum : (pairSums vs).sum = vs.sum := pairSums_sum vs hvseven
    have hdpn : graphDepthsAux (graphDepths g) (pairNodes L)
        = List.replicate (pairNodes L).length (liftD d) := by
      have hexp : graphDepths (g ++ pairNodes L)
          = graphDepths g ++ graphDepthsAux (graphDepths g) (pairNodes L) := by
        rw [graphDepths, graphDepthsAux_append, List.nil_append]
        rfl
      exact List.append_cancel_left (hexp.symm.trans hdep2)
    have hctx : graphDepths g ++ graphDepthsAux (graphDepths g) (pairNodes L)
        = graphDepths (g ++ pairNodes L) := by
      rw [hdep2, hdpn]
    refine ⟨pairNodes L ++ t2, a, ?_, ?_, ?_, ?_, ?_, ?_, ?_, ?_⟩
    · rw [htree, hloop2, List.append_assoc]
    · rw [List.length_append, hlen2, hPN, hpow1]
      omega
    · rw [← List.append_assoc]
      have hD : (if k = 0 then some (liftD d) else some (liftD (some (liftD d)) + (k - 1)))
          = some (liftD d + k) := by
        rcases Nat.eq_zero_or_pos k with hk0 | hkpos
        · subst hk0
          simp
        · rw [if_neg (by omega)]
          show some (liftD d + 1 + (k - 1)) = some (liftD d + k)
          congr 1
          omega
      rw [hD, hvsum] at hgooda
      have hD2 : (if k + 1 = 0 then d else some (liftD d + (k + 1 - 1)))
          = some (liftD d + k) := by
        rw [if_neg (Nat.succ_ne_zero k)]
        congr 1
      rw [hD2]
      exact hgooda
    · intro n hn
      rcases List.mem_append.mp hn with hn1 | hn2
      · obtain ⟨hf2, hl2⟩ := hpairs n hn1
        refine ⟨hf2, ?_⟩
        rcases d with _ | m
        · left
          simpa using hl2
        · right
          simpa using hl2
      · exact hshape2 n hn2
    · rw [List.map_append, List.sum_append, hsum2]
      have hall2 : ∀ x ∈ (pairNodes L).map fun n => (handleDeps n).length,
          x = (if d.isSome then 2 else 0) := by
        intro x hx
        rcases List.mem_map.mp hx with ⟨n, hn, rfl⟩
        exact (hpairs n hn).2
      rw [List.eq_replicate_of_mem hall2, List.sum_const_nat, List.length_map, hPN]
      rcases d with _ | m
      · simp only [Option.isSome_none, Bool.false_eq_true, if_false, Option.isSome_some,
          if_true, Nat.succ_ne_zero]
        rcases Nat.eq_zero_or_pos k with hk0 | hkpos
        · subst hk0
          norm_num
        · rw [if_neg (by omega), hpow1]
          omega
      · simp only [Option.isSome_some, if_true, Nat.succ_ne_zero, if_false]
        rcases Nat.eq_zero_or_pos k with hk0 | hkpos
        · subst hk0
          norm_num
        · rw [if_neg (by omega), hpow1, hpow2]
          omega
    · rw [List.countP_append, hcount2]
      have hpc : (pairNodes L).countP (fun n => (handleDeps n).length == 0)
          = (if d.isSome then 0 else (pairNodes L).length) := by
        rcases d with _ | m
        · simp only [Option.isSome_none, Bool.false_eq_true, if_false]
          apply List.countP_eq_length.mpr
          intro n hn
          have := (hpairs n hn).2
          simp only [Option.isSome_none, Bool.false_eq_true, if_false] at this
          simp [this]
        · simp only [Option.isSome_some, if_true]
          apply List.countP_eq_zero.mpr
          intro n hn
          have := (hpairs n hn).2
          simp only [Option.isSome_some, if_true] at this
          simp [this]
      rw [hpc]
      rcases d with _ | m
      · simp only [Option.isSome_none, Bool.false_eq_true, if_false, Option.isSome_some,
          if_true, Nat.succ_ne_zero, hPN]
        rcases Nat.eq_zero_or_pos k with hk0 | hkpos
        · subst hk0
          norm_num
        · rw [if_neg (by omega)]
          simp
      · simp only [Option.isSome_some, if_true, Nat.succ_ne_zero, if_false]
        rcases Nat.eq_zero_or_pos k with hk0 | hkpos
        · subst hk0
          norm_num
        · rw [if_neg (by omega)]
    · intro x hx
      rw [graphDepthsAux_append] at hx
      rcases List.mem_append.mp hx with hx1 | hx2
      · rw [hdpn] at hx1
        have := List.eq_of_mem_replicate hx1
        subst this
        omega
      · rw [hctx] at hx2
        have hb := hbound2 x hx2
        rcases Nat.eq_zero_or_pos k with hk0 | hkpos
        · subst hk0
          have ht2 : t2 = [] := List.length_eq_zero.mp (by simpa using hlen2)
          subst ht2
          simp [graphDepthsAux] at hx2
        · show x ≤ liftD d + (k + 1 - 1)
          have : liftD (some (liftD d)) + (k - 1) = liftD d + k := by
            show liftD d + 1 + (k - 1) = liftD d + k
            omega
          rw [this] at hb
          omega
    · intro _
      rw [graphDepthsAux_append]
      rcases Nat.eq_zero_or_pos k with hk0 | hkpos
      · subst hk0
        apply List.mem_append_left
        rw [hdpn]
        have hz : liftD d + (0 + 1 - 1) = liftD d := by omega
        rw [hz]
        refine List.mem_replicate.mpr ⟨?_, rfl⟩
        rw [hPN]
        norm_num
      · apply List.mem_append_right
        rw [hctx]
        have hm := hmem2 (by omega)
        have : liftD (some (liftD d)) + (k - 1) = liftD d + (k + 1 - 1) := by
          show liftD d + 1 + (k - 1) = liftD d + (k + 1 - 1)
          omega
        rw [this] at hm
        exact hm

theorem countP_add_not {α : Type} (p : α → Bool) (l : List α) :
    l.countP p + l.countP (fun a => !(p a)) = l.length := by
  induction l with
  | nil => rfl
  | cons a rest ih =>
    by_cases hp : p a
    · rw [List.countP_cons_of_pos _ _ hp, List.countP_cons_of_neg _ _ (by simp [hp]),
        List.length_cons]
      omega
    · rw [List.countP_cons_of_neg _ _ hp, List.countP_cons_of_pos _ _ (by simp [hp]),
        List.length_cons]
      omega

theorem lits_good (g : Graph) (l : List Nat) :
    LGood g none (l.map fun n : Nat => Arg.lit (n : Int)) (l.map fun n : Nat => (n : Int)) := by
  induction l with
  | nil => exact List.Forall₂.nil
  | cons a rest ih =>
    refine List.Forall₂.cons ⟨rfl, rfl, ?_⟩ ih
    intro h hh
    cases hh

theorem sum_range_cast (n : Nat) :
    ((List.range n).map fun j : Nat => (j : Int)).sum * 2 = (n : Int) * ((n : Int) - 1) := by
  induction n with
  | zero => simp
  | succ m ih =>
    rw [List.range_succ, List.map_append, List.sum_append]
    simp only [List.map_cons, List.map_nil, List.sum_cons, List.sum_nil]
    push_cast
    push_cast at ih
    linear_combination ih

theorem tree_sum_value (exp : Nat) (hexp : 1 ≤ exp) :
    ((List.range (2 ^ exp)).map fun j : Nat => (j : Int)).sum
      = 2 ^ (exp - 1) * ((2 : Int) ^ exp - 1) := by
  have h2 := sum_range_cast (2 ^ exp)
  have hcast : ((2 ^ exp : Nat) : Int) = (2 : Int) ^ exp := by
    push_cast
    ring
  rw [hcast] at h2
  have hsplit : (2 : Int) ^ exp = 2 ^ (exp - 1) * 2 := by
    rcases Nat.exists_eq_add_of_le hexp with ⟨e, he⟩
    subst he
    rw [show 1 + e - 1 = e from by omega]
    rw [pow_add]
    ring
  apply mul_right_cancel₀ (b := (2 : Int)) (by norm_num)
  rw [h2, hsplit]
  ring

theorem evalArgE_handle_ok {res : List ExecResult} {r : Nat} {v : Val}
    (h : evalArgE res (Arg.handle r) = some v) : res.getD r .taskFailed = .ok v := by
  have h2 : (match res.getD r .taskFailed with
    | .ok w => some w | _ => none) = some v := h
  cases hres : res.getD r .taskFailed with
  | ok w =>
    rw [hres] at h2
    simp at h2
    rw [h2]
  | taskFailed =>
    rw [hres] at h2
    cases h2
  | depFailed =>
    rw [hres] at h2
    cases h2

theorem graphDepths_nil : graphDepths ([] : Graph) = [] := rfl

/-- Claim C1 (amended): for every `exp >= 1`, `bench_tree exp` builds a
graph with `2^(exp-1)` leaf nodes (the first-level `add` nodes, whose two
arguments are literals), `2^(exp-1) - 1` internal nodes, `2^exp - 2` edges
(each internal node has exactly 2 incoming edges), and critical-path
length `exp - 1`; in total `2^exp - 1` vertices.  The leaf literals
themselves are inline arguments, not graph nodes. -/
theorem bench_tree_metrics (exp : Nat) (hexp : 1 ≤ exp) :
    ∃ (g : Graph) (a : Arg), bench_tree exp = some (g, [a]) ∧
      vertexCount g = 2 ^ exp - 1 ∧
      (g.countP fun n => (handleDeps n).length == 0) = 2 ^ (exp - 1) ∧
      (g.countP fun n => (handleDeps n).length != 0) = 2 ^ (exp - 1) - 1 ∧
      (∀ n ∈ g, (handleDeps n).length = 0 ∨ (handleDeps n).length = 2) ∧
      edgeCount g = 2 ^ exp - 2 ∧
      criticalPathLength g = exp - 1 := by
  have hlen0 : ((List.range (2 ^ exp)).map fun n : Nat => Arg.lit (n : Int)).length
      = 2 ^ exp := by
    simp
  obtain ⟨t, a, hrun, hlen, hgooda, hshape, hsum, hcount, hbound, hmem⟩ :=
    treeLoop_good exp (2 ^ exp) [] none
      ((List.range (2 ^ exp)).map fun n : Nat => Arg.lit (n : Int))
      ((List.range (2 ^ exp)).map fun n : Nat => (n : Int))
      (Nat.le_of_lt (Nat.lt_two_pow exp)) hlen0 (lits_good [] (List.range (2 ^ exp)))
  rw [List.nil_append] at hrun
  have hzeros : (t.countP fun n => (handleDeps n).length == 0) = 2 ^ (exp - 1) := by
    rw [hcount, if_neg (by omega)]
    simp
  have hpow : 2 ^ exp = 2 * 2 ^ (exp - 1) := by
    rcases Nat.exists_eq_add_of_le hexp with ⟨e, he⟩
    subst he
    rw [show 1 + e - 1 = e from by omega, pow_add]
    ring
  have hp1 : 0 < 2 ^ (exp - 1) := Nat.pos_pow_of_pos _ (by norm_num)
  refine ⟨t, a, ?_, hlen, hzeros, ?_, ?_, ?_, ?_⟩
  · show treeLoopF (2 ^ exp) []
      ((List.range (2 ^ exp)).map fun n : Nat => Arg.lit (n : Int)) = some (t, [a])
    exact hrun
  · have hadd := countP_add_not (fun n => (handleDeps n).length == 0) t
    have heqf : (fun n : TaskNode => (handleDeps n).length != 0)
        = (fun n : TaskNode => !((handleDeps n).length == 0)) := rfl
    rw [heqf]
    omega
  · intro n hn
    exact (hshape n hn).2
  · rw [edgeCount_eq_sum, hsum, if_neg (by omega)]
    simp
  · rw [criticalPathLength, graphDepths]
    have hb2 : ∀ x ∈ graphDepthsAux [] t, x ≤ exp - 1 := by
      intro x hx
      have := hbound x (by rw [graphDepths_nil]; exact hx)
      calc x ≤ liftD none + (exp - 1) := this
      _ = exp - 1 := by
        show 0 + (exp - 1) = exp - 1
        omega
    have hm2 : exp - 1 ∈ graphDepthsAux [] t := by
      have := hmem (by omega)
      rw [graphDepths_nil] at this
      rw [show liftD none + (exp - 1) = exp - 1 from by
        show 0 + (exp - 1) = exp - 1
        omega] at this
      exact this
    exact foldl_max_eq_of_mem_of_le 0 (exp - 1) _ (Nat.zero_le _) hm2 hb2

/-- Witness for the amended C1 at `exp = 3`: 7 vertices, 4 leaves,
3 internal nodes, 6 edges, critical-path length 2. -/
theorem bench_tree_metrics_witness :
    1 ≤ 3 ∧ (∃ (g : Graph) (a : Arg), bench_tree 3 = some (g, [a]) ∧
      vertexCount g = 2 ^ 3 - 1 ∧
      (g.countP fun n => (handleDeps n).length == 0) = 2 ^ (3 - 1) ∧
      (g.countP fun n => (handleDeps n).length != 0) = 2 ^ (3 - 1) - 1 ∧
      (∀ n ∈ g, (handleDeps n).length = 0 ∨ (handleDeps n).length = 2) ∧
      edgeCount g = 2 ^ 3 - 2 ∧
      criticalPathLength g = 3 - 1) :=
  ⟨by decide, bench_tree_metrics 3 (by decide)⟩

/-- Counterexample to claim C1 as stated: at `exp = 3` the graph built by
`bench_tree` has 7 vertices (not 8 leaf plus 7 internal nodes), 6 edges
(not 14), 4 handle-free nodes (not 8 leaf nodes) and critical-path length
2 (not 3) — the 8 leaf literals are inline arguments, not nodes. -/
theorem bench_tree_claimed_metrics_false :
    (bench_tree 3).map (fun p => (vertexCount p.1, edgeCount p.1, criticalPathLength p.1))
      = some (7, 6, 2) ∧
    (bench_tree 3).map (fun p => p.1.countP fun n => (handleDeps n).length == 0)
      = some 4 ∧
    ((7, 6, 2) : Nat × Nat × Nat) ≠ (8 + 7, 14, 3) ∧ (4 : Nat) ≠ 8 :=
  ⟨by decide, by decide, by decide, by decide⟩

/-- Claim C9: `bench_tree exp` always returns a list of length exactly 1;
for `exp = 0` the sole element is the literal 0 and no node is created,
while for `exp >= 1` it is a handle to the root of the reduction tree. -/
theorem bench_tree_singleton (exp : Nat) :
    ∃ (g : Graph) (L : List Arg), bench_tree exp = some (g, L) ∧ L.length = 1 ∧
      (exp = 0 → g = [] ∧ L = [Arg.lit 0]) ∧
      (1 ≤ exp → ∃ h : Nat, L = [Arg.handle h]) := by
  rcases Nat.eq_zero_or_pos exp with hz | hpos
  · subst hz
    refine ⟨[], [Arg.lit 0], by decide, by decide, fun _ => ⟨rfl, rfl⟩, ?_⟩
    intro h1
    omega
  · have hlen0 : ((List.range (2 ^ exp)).map fun n : Nat => Arg.lit (n : Int)).length
        = 2 ^ exp := by
      simp
    obtain ⟨t, a, hrun, _, hgooda, _, _, _, _, _⟩ :=
      treeLoop_good exp (2 ^ exp) [] none
        ((List.range (2 ^ exp)).map fun n : Nat => Arg.lit (n : Int))
        ((List.range (2 ^ exp)).map fun n : Nat => (n : Int))
        (Nat.le_of_lt (Nat.lt_two_pow exp)) hlen0 (lits_good [] (List.range (2 ^ exp)))
    rw [List.nil_append] at hrun
    rw [if_neg (by omega)] at hgooda
    rcases goodArg_shape_some hgooda with ⟨hh, rfl⟩
    refine ⟨t, [Arg.handle hh], ?_, rfl, ?_, fun _ => ⟨hh, rfl⟩⟩
    · show treeLoopF (2 ^ exp) []
        ((List.range (2 ^ exp)).map fun n : Nat => Arg.lit (n : Int))
        = some (t, [Arg.handle hh])
      exact hrun
    · intro h0
      omega

/-- Witness for C9 at `exp = 3`: the returned list has length 1. -/
theorem bench_tree_singleton_witness :
    (bench_tree 3).map (fun p => p.2.length) = some 1 := by
  obtain ⟨g, L, h1, h2, _, _⟩ := bench_tree_singleton 3
  rw [h1]
  simp [h2]

/-- Claim C10: executing the terminal handle of `bench_tree exp`
(`exp >= 1`) yields `sum (range (2^exp)) = 2^(exp-1) * (2^exp - 1)`. -/
theorem bench_tree_execution (exp : Nat) (hexp : 1 ≤ exp) :
    ∃ (g : Graph) (r : Nat), bench_tree exp = some (g, [Arg.handle r]) ∧
      (runGraphE g).getD r .taskFailed
        = .ok ((2 : Int) ^ (exp - 1) * ((2 : Int) ^ exp - 1)) := by
  have hlen0 : ((List.range (2 ^ exp)).map fun n : Nat => Arg.lit (n : Int)).length
      = 2 ^ exp := by
    simp
  obtain ⟨t, a, hrun, _, hgooda, _, _, _, _, _⟩ :=
    treeLoop_good exp (2 ^ exp) [] none
      ((List.range (2 ^ exp)).map fun n : Nat => Arg.lit (n : Int))
      ((List.range (2 ^ exp)).map fun n : Nat => (n : Int))
      (Nat.le_of_lt (Nat.lt_two_pow exp)) hlen0 (lits_good [] (List.range (2 ^ exp)))
  rw [List.nil_append] at hrun hgooda
  rw [if_neg (by omega)] at hgooda
  rcases goodArg_shape_some hgooda with ⟨r, rfl⟩
  have hev := hgooda.1
  have hget := evalArgE_handle_ok hev
  rw [tree_sum_value exp hexp] at hget
  refine ⟨t, r, ?_, hget⟩
  show treeLoopF (2 ^ exp) []
    ((List.range (2 ^ exp)).map fun n : Nat => Arg.lit (n : Int))
    = some (t, [Arg.handle r])
  exact hrun

/-- Witness for C10 at `exp = 3`: the tree of 8 leaves evaluates to 28. -/
theorem bench_tree_execution_witness :
    1 ≤ 3 ∧ ∃ (g : Graph) (r : Nat), bench_tree 3 = some (g, [Arg.handle r]) ∧
      (runGraphE g).getD r .taskFailed = .ok 28 := by
  refine ⟨by decide, ?_⟩
  obtain ⟨g, r, h1, h2⟩ := bench_tree_execution 3 (by decide)
  refine ⟨g, r, h1, ?_⟩
  rw [h2]
  norm_num

/-! ### The Kahn-style scheduler -/

/-- Modelled from the spec: well-formedness check — every handle among a
node's arguments refers to an earlier node (no forward references), the
invariant the builder establishes by construction. -/
def graphWFb (g : Graph) : Bool :=
  (List.range g.length).all fun i =>
    (handleDeps (g.getD i ⟨.mergeF, []⟩)).all fun h => h < i

/-- Modelled from the spec: pick the first node that is not done and whose
pending-dependency count has reached zero. -/
def findReady (done : List Bool) (pending : List Nat) : Option Nat :=
  (List.range done.length).find? fun i => !(done.getD i true) && (pending.getD i 1 == 0)

/-- Modelled from the spec: when node `i` completes, decrement each
dependent's pending count, once per dependency on `i`. -/
def decDeps (g : Graph) (i : Nat) (pending : List Nat) : List Nat :=
  (List.range pending.length).map fun j =>
    pending.getD j 0 - (handleDeps (g.getD j ⟨.mergeF, []⟩)).count i

/-- Main loop of iterative Kahn's algorithm: repeatedly execute a ready
node, mark it done and release its dependents; stops early (cycle
detection) if no node is ready. -/
def kahnAux (g : Graph) : Nat → List Bool → List Nat → List Nat → List Nat
  | 0, _, _, acc => acc
  | fuel + 1, done, pending, acc =>
    match findReady done pending with
    | none => acc
    | some i => kahnAux g fuel (done.set i true) (decDeps g i pending) (acc ++ [i])

/-- Modelled from the spec: the scheduler's execution order, computed by
iterative Kahn's algorithm over in-degree (pending-dependency) counts. -/
def kahnSchedule (g : Graph) : List Nat :=
  kahnAux g g.length (List.replicate g.length false)
    (g.map fun n => (handleDeps n).length) []

theorem getD_replicate_append_lt {α : Type} (i t m : Nat) (b c dflt : α) (h : i < t) :
    (List.replicate t b ++ List.replicate m c).getD i dflt = b := by
  rw [List.getD_append _ _ _ _ (by simp [h])]
  rw [List.getD_eq_getElem?_getD, List.getElem?_replicate, if_pos h]
  rfl

theorem getD_replicate_append_ge {α : Type} (i t m : Nat) (b c dflt : α)
    (h1 : t ≤ i) (h2 : i < t + m) :
    (List.replicate t b ++ List.replicate m c).getD i dflt = c := by
  rw [List.getD_append_right _ _ _ _ (by simp [h1])]
  rw [List.getD_eq_getElem?_getD, List.getElem?_replicate, List.length_replicate,
    if_pos (by omega)]
  rfl

theorem countP_ge_split (t : Nat) (l : List Nat) :
    l.countP (fun h => decide (t ≤ h))
      = l.count t + l.countP (fun h => decide (t + 1 ≤ h)) := by
  induction l with
  | nil => rfl
  | cons a rest ih =>
    simp only [List.countP_cons, List.count_cons]
    rcases Nat.lt_trichotomy a t with h | h | h
    · have e1 : ¬ (t ≤ a) := by omega
      have e2 : ¬ (t + 1 ≤ a) := by omega
      have e3 : ¬ (a = t) := by omega
      simp [e1, e2, e3, ih]
    · subst h
      have e2 : ¬ (a + 1 ≤ a) := by omega
      simp [e2, ih]
      omega
    · have e1 : t ≤ a := by omega
      have e2 : t + 1 ≤ a := by omega
      have e3 : ¬ (a = t) := by omega
      simp [e1, e2, e3, ih]
      omega

theorem set_append_cons {α : Type} (l : List α) (x v : α) (r : List α) :
    (l ++ x :: r).set l.length v = l ++ v :: r := by
  induction l with
  | nil => rfl
  | cons a rest ih =>
    simp only [List.cons_append, List.length_cons, List.set_cons_succ, ih]

theorem done_set (t m : Nat) :
    ((List.replicate t true ++ List.replicate (m + 1) false).set t true)
      = List.replicate (t + 1) true ++ List.replicate m false := by
  have h1 := set_append_cons (List.replicate t true) false true (List.replicate m false)
  rw [List.length_replicate] at h1
  rw [List.replicate_succ, h1, List.replicate_succ']
  simp [List.append_assoc]

theorem find?_append_first {α : Type} (l1 : List α) (x : α) (l2 : List α) (p : α → Bool)
    (h1 : ∀ y ∈ l1, p y = false) (hx : p x = true) :
    (l1 ++ x :: l2).find? p = some x := by
  induction l1 with
  | nil => exact List.find?_cons_of_pos l2 hx
  | cons a rest ih =>
    rw [List.cons_append, List.find?_cons_of_neg _ (by simp [h1 a (by simp)])]
    exact ih fun y hy => h1 y (by simp [hy])

theorem range_split (t n : Nat) (h : t < n) :
    List.range n
      = List.range t ++ t :: ((List.range (n - t - 1)).map fun j => t + 1 + j) := by
  obtain ⟨m, rfl⟩ : ∃ m, n = t + 1 + m := ⟨n - t - 1, by omega⟩
  rw [show t + 1 + m - t - 1 = m from by omega]
  rw [List.range_add, List.range_succ]
  simp [List.append_assoc]

theorem find?_range_eq (n t : Nat) (p : Nat → Bool) (ht : t < n)
    (h1 : ∀ y, y < t → p y = false) (hx : p t = true) :
    (List.range n).find? p = some t := by
  rw [range_split t n ht]
  apply find?_append_first
  · intro y hy
    exact h1 y (List.mem_range.mp hy)
  · exact hx

theorem getD_range (n j : Nat) (h : j < n) : (List.range n).getD j 0 = j := by
  rw [List.getD_eq_getElem?_getD, List.getElem?_range h]
  rfl

theorem count_range (i n : Nat) (h : i < n) : (List.range n).count i = 1 := by
  induction n with
  | zero => omega
  | succ m ih =>
    rw [List.range_succ, List.count_append]
    rcases Nat.lt_or_ge i m with h2 | h2
    · rw [ih h2]
      have hsing : List.count i [m] = 0 := by
        apply List.count_eq_zero.mpr
        simp
        omega
      omega
    · have him : i = m := by omega
      subst him
      rw [List.count_eq_zero.mpr (by simp)]
      simp

theorem map_eq_map_range {α β : Type} (f : α → β) (l : List α) (dflt : α) :
    l.map f = (List.range l.length).map fun j => f (l.getD j dflt) := by
  induction l with
  | nil => rfl
  | cons a rest ih =>
    rw [List.length_cons, List.range_succ_eq_map]
    simp only [List.map_cons, List.map_map]
    congr 1

theorem pending_init (g : Graph) :
    (g.map fun n => (handleDeps n).length)
      = (List.range g.length).map fun j =>
        (handleDeps (g.getD j ⟨.mergeF, []⟩)).countP fun h => decide (0 ≤ h) := by
  rw [map_eq_map_range (fun n => (handleDeps n).length) g ⟨.mergeF, []⟩]
  apply List.map_congr_left
  intro j _
  rw [List.countP_eq_length.mpr]
  intro a _
  simp

theorem findReady_eq (g : Graph) (t : Nat) (ht : t < g.length)
    (hwf : ∀ i, i < g.length → ∀ h ∈ handleDeps (g.getD i ⟨.mergeF, []⟩), h < i) :
    findReady (List.replicate t true ++ List.replicate (g.length - t) false)
      ((List.range g.length).map fun j =>
        (handleDeps (g.getD j ⟨.mergeF, []⟩)).countP fun h => decide (t ≤ h))
      = some t := by
  rw [findReady]
  have hlen : (List.replicate t true ++ List.replicate (g.length - t) false).length
      = g.length := by
    simp
    omega
  rw [hlen]
  apply find?_range_eq g.length t _ ht
  · intro y hylt
    show (!((List.replicate t true ++ List.replicate (g.length - t) false).getD y true) &&
      (((List.range g.length).map fun j =>
        (handleDeps (g.getD j ⟨.mergeF, []⟩)).countP fun h => decide (t ≤ h)).getD y 1 == 0))
      = false
    rw [getD_replicate_append_lt y t _ true false true hylt]
    rfl
  · have hd : (List.replicate t true ++ List.replicate (g.length - t) false).getD t true
        = false := getD_replicate_append_ge t t _ true false true (Nat.le_refl t) (by omega)
    have hp : ((List.range g.length).map fun j =>
        (handleDeps (g.getD j ⟨.mergeF, []⟩)).countP fun h => decide (t ≤ h)).getD t 1
        = 0 := by
      rw [getD_map_range _ _ _ _ ht]
      apply List.countP_eq_zero.mpr
      intro h hmem
      have := hwf t ht h hmem
      simp
      omega
    show (!((List.replicate t true ++ List.replicate (g.length - t) false).getD t true) &&
      (((List.range g.length).map fun j =>
        (handleDeps (g.getD j ⟨.mergeF, []⟩)).countP fun h => decide (t ≤ h)).getD t 1 == 0))
      = true
    rw [hd, hp]
    rfl

theorem decDeps_step (g : Graph) (t : Nat) :
    decDeps g t ((List.range g.length).map fun j =>
        (handleDeps (g.getD j ⟨.mergeF, []⟩)).countP fun h => decide (t ≤ h))
      = (List.range g.length).map fun j =>
        (handleDeps (g.getD j ⟨.mergeF, []⟩)).countP fun h => decide (t + 1 ≤ h) := by
  rw [decDeps, List.length_map, List.length_range]
  apply List.map_congr_left
  intro j hj
  rw [getD_map_range _ _ _ _ (List.mem_range.mp hj)]
  rw [countP_ge_split t]
  omega

theorem kahnAux_invariant (g : Graph)
    (hwf : ∀ i, i < g.length → ∀ h ∈ handleDeps (g.getD i ⟨.mergeF, []⟩), h < i) :
    ∀ f t : Nat, t + f = g.length →
    kahnAux g f (List.replicate t true ++ List.replicate (g.length - t) false)
      ((List.range g.length).map fun j =>
        (handleDeps (g.getD j ⟨.mergeF, []⟩)).countP fun h => decide (t ≤ h))
      (List.range t)
      = List.range g.length := by
  intro f
  induction f with
  | zero =>
    intro t ht
    rw [kahnAux]
    rw [show t = g.length from by omega]
  | succ f2 ih =>
    intro t ht
    have htlt : t < g.length := by omega
    have hfr := findReady_eq g t htlt hwf
    simp only [kahnAux, hfr]
    rw [decDeps_step g t]
    rw [show g.length - t = (g.length - t - 1) + 1 from by omega, done_set]
    rw [show g.length - t - 1 = g.length - (t + 1) from by omega]
    rw [← List.range_succ]
    exact ih (t + 1) (by omega)

theorem kahnSchedule_eq_range (g : Graph) (hwf : graphWFb g = true) :
    kahnSchedule g = List.range g.length := by
  have hwf2 : ∀ i, i < g.length → ∀ h ∈ handleDeps (g.getD i ⟨.mergeF, []⟩), h < i := by
    intro i hi h hh
    have h1 := List.all_eq_true.mp hwf i (List.mem_range.mpr hi)
    have h2 := List.all_eq_true.mp h1 h hh
    simpa using h2
  rw [kahnSchedule]
  have h0 := kahnAux_invariant g hwf2 g.length 0 (by omega)
  simp only [Nat.sub_zero, List.range_zero, List.replicate_zero]  at h0
  rw [pending_init g]
  exact h0

/-- Claim C4: for a well-formed graph the scheduler's execution pass
contains every node exactly once — in particular a node with fan-out to
`k > 1` dependents is invoked exactly once, regardless of `k` — and every
dependency of a node is scheduled strictly before the node itself. -/
theorem scheduler_runs_each_node_once (g : Graph) (hwf : graphWFb g = true) :
    (∀ i, i < g.length → (kahnSchedule g).count i = 1) ∧
    (∀ j, j < (kahnSchedule g).length →
      ∀ h ∈ handleDeps (g.getD ((kahnSchedule g).getD j 0) ⟨.mergeF, []⟩),
        h ∈ (kahnSchedule g).take j) := by
  have hwf2 : ∀ i, i < g.length → ∀ h ∈ handleDeps (g.getD i ⟨.mergeF, []⟩), h < i := by
    intro i hi h hh
    have h1 := List.all_eq_true.mp hwf i (List.mem_range.mpr hi)
    have h2 := List.all_eq_true.mp h1 h hh
    simpa using h2
  rw [kahnSchedule_eq_range g hwf]
  constructor
  · intro i hi
    exact count_range i g.length hi
  · intro j hj h hh
    rw [List.length_range] at hj
    rw [getD_range g.length j hj] at hh
    rw [List.take_range]
    have hlt : h < j := hwf2 j hj h hh
    rw [Nat.min_def, if_pos (Nat.le_of_lt hj)]
    exact List.mem_range.mpr hlt

/-- Witness for C4 on the concrete fan-in graph `bench_merge 3`. -/
theorem scheduler_runs_each_node_once_witness :
    graphWFb (bench_merge 3).1 = true ∧
    ((∀ i, i < (bench_merge 3).1.length → (kahnSchedule (bench_merge 3).1).count i = 1) ∧
     (∀ j, j < (kahnSchedule (bench_merge 3).1).length →
       ∀ h ∈ handleDeps ((bench_merge 3).1.getD
           ((kahnSchedule (bench_merge 3).1).getD j 0) ⟨.mergeF, []⟩),
         h ∈ (kahnSchedule (bench_merge 3).1).take j)) :=
  ⟨by decide, scheduler_runs_each_node_once (bench_merge 3).1 (by decide)⟩

/-! ### Schedule-parameterized execution -/

/-- Resolve one argument against a partial per-node state (`none` means
the node has not been executed yet). -/
def evalArgO (st : List (Option ExecResult)) : Arg → Option Val
  | .lit v => some v
  | .handle h =>
    match st.getD h none with
    | some (.ok v) => some v
    | _ => none

/-- Resolve a whole argument list against a partial state. -/
def evalArgsO (st : List (Option ExecResult)) : List Arg → Option (List Val)
  | [] => some []
  | a :: rest =>
    match evalArgO st a, evalArgsO st rest with
    | some v, some vs => some (v :: vs)
    | _, _ => none

/-- Execute one node against a partial state. -/
def nodeExecO (st : List (Option ExecResult)) (n : TaskNode) : ExecResult :=
  match evalArgsO st n.args with
  | none => .depFailed
  | some vs =>
    match evalFunc n.func vs with
    | some v => .ok v
    | none => .taskFailed

/-- Modelled from the spec: execute the nodes in the order given by a
schedule; each step computes one node's result from the current partial
state and stores it. -/
def execSchedule (g : Graph) (order : List Nat) : List (Option ExecResult) :=
  order.foldl (fun st i => st.set i (some (nodeExecO st (g.getD i ⟨.mergeF, []⟩))))
    (List.replicate g.length none)

/-- Modelled from the spec: a valid schedule visits every node exactly
once and schedules every dependency before its dependent. -/
def validScheduleb (g : Graph) (order : List Nat) : Bool :=
  (order.length == g.length) &&
  ((List.range g.length).all fun i => order.count i == 1) &&
  ((List.range order.length).all fun j =>
    (handleDeps (g.getD (order.getD j 0) ⟨.mergeF, []⟩)).all fun h =>
      (order.take j).contains h)

/-- The result the reference (topological-order) run assigns to node `i`. -/
def refResult (g : Graph) (i : Nat) : ExecResult := (runGraphE g).getD i .taskFailed

theorem getD_set_self {α : Type} (l : List α) (i : Nat) (v d : α) (h : i < l.length) :
    (l.set i v).getD i d = v := by
  rw [List.getD_eq_getElem?_getD, List.getElem?_set_eq h]
  rfl

theorem getD_set_ne {α : Type} (l : List α) (i j : Nat) (v d : α) (h : i ≠ j) :
    (l.set i v).getD j d = l.getD j d := by
  rw [List.getD_eq_getElem?_getD, List.getElem?_set_ne h, ← List.getD_eq_getElem?_getD]

theorem getD_take {α : Type} (l : List α) (i j : Nat) (d : α) (h : j < i) :
    (l.take i).getD j d = l.getD j d := by
  rw [List.getD_eq_getElem?_getD, List.getElem?_take_of_lt h, ← List.getD_eq_getElem?_getD]

theorem getD_replicate_lt {α : Type} (n j : Nat) (a d : α) (h : j < n) :
    (List.replicate n a).getD j d = a := by
  rw [List.getD_eq_getElem?_getD, List.getElem?_replicate, if_pos h]
  rfl

theorem mem_handleDeps {n : TaskNode} {h : Nat} (ha : Arg.handle h ∈ n.args) :
    h ∈ handleDeps n := by
  rw [handleDeps]
  exact List.mem_filterMap.mpr ⟨Arg.handle h, ha, rfl⟩

theorem countP_lt_split (l : List Nat) (m : Nat) :
    l.countP (fun x => decide (x < m + 1))
      = l.countP (fun x => decide (x < m)) + l.count m := by
  induction l with
  | nil => rfl
  | cons a rest ih =>
    simp only [List.countP_cons, List.count_cons]
    rcases Nat.lt_trichotomy a m with h | h | h
    · have e1 : a < m + 1 := by omega
      have e3 : ¬ (a = m) := by omega
      simp [e1, h, e3, ih]
      omega
    · subst h
      have e1 : a < a + 1 := by omega
      have e2 : ¬ (a < a) := by omega
      simp [e1, e2, ih]
      omega
    · have e1 : ¬ (a < m + 1) := by omega
      have e2 : ¬ (a < m) := by omega
      have e3 : ¬ (a = m) := by omega
      simp [e1, e2, e3, ih]

theorem countP_lt_eq_sum_counts (l : List Nat) (n : Nat) :
    l.countP (fun x => decide (x < n)) = ((List.range n).map fun i => l.count i).sum := by
  induction n with
  | zero =>
    simp only [List.range_zero, List.map_nil, List.sum_nil]
    apply List.countP_eq_zero.mpr
    intro a _
    simp
  | succ m ih =>
    rw [List.range_succ, List.map_append, List.sum_append]
    simp only [List.map_cons, List.map_nil, List.sum_cons, List.sum_nil]
    rw [← ih, countP_lt_split]
    omega

theorem valid_parts (g : Graph) (order : List Nat) (hv : validScheduleb g order = true) :
    order.length = g.length ∧
    (∀ i, i < g.length → order.count i = 1) ∧
    (∀ j, j < order.length →
      ∀ h ∈ handleDeps (g.getD (order.getD j 0) ⟨.mergeF, []⟩), h ∈ order.take j) := by
  rw [validScheduleb] at hv
  simp only [Bool.and_eq_true, beq_iff_eq, List.all_eq_true] at hv
  obtain ⟨⟨h1, h2⟩, h3⟩ := hv
  refine ⟨h1, ?_, ?_⟩
  · intro i hi
    have := h2 i (List.mem_range.mpr hi)
    simpa using this
  · intro j hj h hh
    have h4 := h3 j (List.mem_range.mpr hj) h hh
    exact List.elem_iff.mp h4

theorem valid_elems_lt (g : Graph) (order : List Nat)
    (hv : validScheduleb g order = true) : ∀ x ∈ order, x < g.length := by
  obtain ⟨h1, h2, _⟩ := valid_parts g order hv
  have hsum : ((List.range g.length).map fun i => order.count i).sum = g.length := by
    have hrepl : ∀ x ∈ (List.range g.length).map fun i => order.count i, x = 1 := by
      intro x hx
      rcases List.mem_map.mp hx with ⟨i, hi, rfl⟩
      exact h2 i (List.mem_range.mp hi)
    rw [List.eq_replicate_of_mem hrepl, List.sum_const_nat, List.length_map,
      List.length_range]
    omega
  have hcountP : order.countP (fun x => decide (x < g.length)) = order.length := by
    rw [countP_lt_eq_sum_counts, hsum, h1]
  have := List.countP_eq_length.mp hcountP
  intro x hx
  have := this x hx
  simpa using this

theorem ext_getD {α : Type} (d : α) (l1 l2 : List α) (hlen : l1.length = l2.length)
    (h : ∀ i, i < l1.length → l1.getD i d = l2.getD i d) : l1 = l2 := by
  apply List.ext_getElem?
  intro i
  rcases Nat.lt_or_ge i l1.length with hi | hi
  · have h2 := h i hi
    rw [List.getD_eq_getElem?_getD, List.getD_eq_getElem?_getD,
      List.getElem?_eq_getElem hi, List.getElem?_eq_getElem (by omega : i < l2.length)] at h2
    simp only [Option.getD_some] at h2
    rw [List.getElem?_eq_getElem hi, List.getElem?_eq_getElem (by omega : i < l2.length), h2]
  · rw [List.getElem?_eq_none (by omega), List.getElem?_eq_none (by omega)]

theorem refResult_eq (g : Graph) (i : Nat) (hi : i < g.length) :
    refResult g i = nodeExec ((runGraphE g).take i) (g.getD i ⟨.mergeF, []⟩) := by
  have hsplit : g = g.take i ++ g.getD i ⟨.mergeF, []⟩ :: g.drop (i + 1) := by
    have h1 := List.take_append_drop i g
    have h2 : g.drop i = g.getD i ⟨.mergeF, []⟩ :: g.drop (i + 1) := by
      rw [List.drop_eq_getElem_cons hi]
      congr 1
      rw [List.getD_eq_getElem?_getD, List.getElem?_eq_getElem hi]
      rfl
    rw [h2] at h1
    exact h1.symm
  have hR1len : (runAux [] (g.take i)).length = i := by
    rw [length_runAux, List.length_take]
    omega
  have hrg : runGraphE g
      = runAux [] (g.take i)
        ++ (nodeExec (runAux [] (g.take i)) (g.getD i ⟨.mergeF, []⟩)
            :: runAux ((runAux [] (g.take i))
                ++ [nodeExec (runAux [] (g.take i)) (g.getD i ⟨.mergeF, []⟩)])
              (g.drop (i + 1))) := by
    calc runGraphE g
        = runAux [] (g.take i ++ g.getD i ⟨.mergeF, []⟩ :: g.drop (i + 1)) := by
          rw [runGraphE, ← hsplit]
    _ = runAux [] (g.take i)
        ++ runAux ([] ++ runAux [] (g.take i))
            (g.getD i ⟨.mergeF, []⟩ :: g.drop (i + 1)) := runAux_append _ _ _
    _ = _ := by
          rw [List.nil_append]
          rfl
  have hgetD : refResult g i = nodeExec (runAux [] (g.take i)) (g.getD i ⟨.mergeF, []⟩) := by
    rw [refResult, hrg]
    have := getD_append_length (runAux [] (g.take i))
      (nodeExec (runAux [] (g.take i)) (g.getD i ⟨.mergeF, []⟩))
      (runAux ((runAux [] (g.take i))
          ++ [nodeExec (runAux [] (g.take i)) (g.getD i ⟨.mergeF, []⟩)]) (g.drop (i + 1)))
      ExecResult.taskFailed
    rw [hR1len] at this
    exact this
  have htake : (runGraphE g).take i = runAux [] (g.take i) := by
    rw [hrg]
    exact List.take_left' hR1len
  rw [hgetD, htake]

theorem evalArgsO_congr (st : List (Option ExecResult)) (res : List ExecResult) :
    ∀ args : List Arg, (∀ a ∈ args, evalArgO st a = evalArgE res a) →
      evalArgsO st args = evalArgs res args := by
  intro args
  induction args with
  | nil => intro _; rfl
  | cons a rest ih =>
    intro h
    rw [evalArgsO, evalArgs, h a (by simp), ih fun x hx => h x (by simp [hx])]

theorem nodeExecO_congr (st : List (Option ExecResult)) (res : List ExecResult)
    (n : TaskNode) (h : ∀ a ∈ n.args, evalArgO st a = evalArgE res a) :
    nodeExecO st n = nodeExec res n := by
  rw [nodeExecO, nodeExec, evalArgsO_congr st res n.args h]

theorem execSchedule_inv (g : Graph)
    (hwf2 : ∀ i, i < g.length → ∀ h ∈ handleDeps (g.getD i ⟨.mergeF, []⟩), h < i)
    (order : List Nat) (hv : validScheduleb g order = true) :
    ∀ (rest done : List Nat) (st : List (Option ExecResult)),
      order = done ++ rest →
      st.length = g.length →
      (∀ i, i < g.length →
        st.getD i none = (if i ∈ done then some (refResult g i) else none)) →
      (rest.foldl (fun st i => st.set i (some (nodeExecO st (g.getD i ⟨.mergeF, []⟩)))) st).length
          = g.length ∧
      (∀ i, i < g.length →
        (rest.foldl (fun st i => st.set i (some (nodeExecO st (g.getD i ⟨.mergeF, []⟩)))) st).getD
            i none
          = (if i ∈ done ++ rest then some (refResult g i) else none)) := by
  intro rest
  induction rest with
  | nil =>
    intro done st ho hl hinv
    refine ⟨hl, ?_⟩
    intro i hi
    rw [List.foldl_nil, List.append_nil]
    exact hinv i hi
  | cons i rest ih =>
    intro done st ho hl hinv
    obtain ⟨hv1, hv2, hv3⟩ := valid_parts g order hv
    have hiord : i ∈ order := by
      rw [ho]
      simp
    have hin : i < g.length := valid_elems_lt g order hv i hiord
    have hjlt : done.length < order.length := by
      rw [ho, List.length_append, List.length_cons]
      omega
    have hgetj : order.getD done.length 0 = i := by
      rw [ho]
      exact getD_append_length done i rest 0
    have htakej : order.take done.length = done := by
      rw [ho]
      exact List.take_left done (i :: rest)
    have hdeps : ∀ h ∈ handleDeps (g.getD i ⟨.mergeF, []⟩), h ∈ done := by
      intro h hh
      have := hv3 done.length hjlt h (by rw [hgetj]; exact hh)
      rwa [htakej] at this
    have hnode : nodeExecO st (g.getD i ⟨.mergeF, []⟩) = refResult g i := by
      rw [refResult_eq g i hin]
      apply nodeExecO_congr
      intro a ha
      cases a with
      | lit v => rfl
      | handle h =>
        have hdep : h ∈ handleDeps (g.getD i ⟨.mergeF, []⟩) := mem_handleDeps ha
        have hhi : h < i := hwf2 i hin h hdep
        have hhd : h ∈ done := hdeps h hdep
        have hsth : st.getD h none = some (refResult g h) := by
          rw [hinv h (by omega), if_pos hhd]
        show (match st.getD h none with | some (.ok v) => some v | _ => none)
          = (match ((runGraphE g).take i).getD h .taskFailed with
              | .ok v => some v | _ => none)
        have htk : ((runGraphE g).take i).getD h .taskFailed
            = (runGraphE g).getD h .taskFailed := getD_take _ i h _ hhi
        rw [hsth, htk]
        show _ = (match refResult g h with | .ok v => some v | _ => none)
        cases refResult g h <;> rfl
    rw [List.foldl_cons, hnode]
    have hres := ih (done ++ [i]) (st.set i (some (refResult g i)))
      (by rw [ho, List.append_assoc, List.singleton_append])
      (by rw [List.length_set, hl]) ?_
    · obtain ⟨hlen2, hpt⟩ := hres
      refine ⟨hlen2, ?_⟩
      intro i2 hi2
      have := hpt i2 hi2
      rwa [List.append_assoc, List.singleton_append] at this
    · intro i2 hi2
      rcases eq_or_ne i2 i with rfl | hne
      · rw [getD_set_self st i2 _ none (by omega), if_pos (by simp)]
      · rw [getD_set_ne st i i2 _ none (fun hc => hne hc.symm)]
        rw [hinv i2 hi2]
        by_cases hmem : i2 ∈ done
        · rw [if_pos hmem, if_pos (by simp [hmem])]
        · rw [if_neg hmem, if_neg (by simp [hmem, hne])]

theorem graphWFb_spec (g : Graph) (hwf : graphWFb g = true) :
    ∀ i, i < g.length → ∀ h ∈ handleDeps (g.getD i ⟨.mergeF, []⟩), h < i := by
  intro i hi h hh
  have h1 := List.all_eq_true.mp hwf i (List.mem_range.mpr hi)
  have h2 := List.all_eq_true.mp h1 h hh
  simpa using h2

theorem execSchedule_canonical (g : Graph) (hwf : graphWFb g = true)
    (ord : List Nat) (hv : validScheduleb g ord = true) :
    execSchedule g ord = (List.range g.length).map fun i => some (refResult g i) := by
  have hwf2 := graphWFb_spec g hwf
  obtain ⟨hlen, hpt⟩ := execSchedule_inv g hwf2 ord hv ord [] (List.replicate g.length none)
    (by simp) (by simp)
    (by
      intro i hi
      rw [getD_replicate_lt _ _ _ _ hi, if_neg (by simp)])
  obtain ⟨_, hv2, _⟩ := valid_parts g ord hv
  rw [execSchedule]
  apply ext_getD (none : Option ExecResult)
  · rw [hlen, List.length_map, List.length_range]
  · intro i hi
    rw [hlen] at hi
    have hmem : i ∈ ord := by
      apply List.count_pos_iff_mem.mp
      rw [hv2 i hi]
      omega
    rw [hpt i hi, List.nil_append, if_pos hmem, getD_map_range _ _ _ _ hi]

/-- Claim C6: for a fixed well-formed graph, executing under any two valid
schedules — any linear extensions of the dependency order, hence any
scheduling order or concurrency degree — produces the same result state
for every node, terminals included. -/
theorem execution_deterministic (g : Graph) (ord1 ord2 : List Nat)
    (hwf : graphWFb g = true)
    (h1 : validScheduleb g ord1 = true) (h2 : validScheduleb g ord2 = true) :
    execSchedule g ord1 = execSchedule g ord2 := by
  rw [execSchedule_canonical g hwf ord1 h1, execSchedule_canonical g hwf ord2 h2]

/-- Witness for C6 on `bench_merge 2` with two different valid schedules. -/
theorem execution_deterministic_witness :
    graphWFb (bench_merge 2).1 = true ∧
    validScheduleb (bench_merge 2).1 [0, 1, 2] = true ∧
    validScheduleb (bench_merge 2).1 [1, 0, 2] = true ∧
    execSchedule (bench_merge 2).1 [0, 1, 2] = execSchedule (bench_merge 2).1 [1, 0, 2] :=
  ⟨by decide, by decide, by decide,
    execution_deterministic (bench_merge 2).1 [0, 1, 2] [1, 0, 2]
      (by decide) (by decide) (by decide)⟩
